import Mathlib

/-!
Formal model of `generate_gallery.py` (gallery generation script).

The script renames `gallery/full_pc/*.png` to zero-padded sequential names via a
two-phase rename, pads the sequence with gray placeholder images up to 208
entries, produces downscaled mobile copies, letterboxed thumbnail cells, and
packs them into fixed-size atlas pages.

Modeling conventions:
* Filenames (Python `str`) are modeled as `List Char`; comparisons are by code
  point exactly as in Python.  `str.lower` is modeled for ASCII letters
  (`lowerChar`/`lowerName`), which covers every name the script itself
  generates; the rename theorems therefore carry an explicit ASCII-filenames
  hypothesis, on which `lowerName` agrees with Python's `str.lower` and with
  the case folding of the Windows filesystem.
* The directory is modeled as an association list from names to file contents
  (`FS α`).  The script's docstring declares Windows 11 / Python 3.x, so name
  resolution (`lookupFS`, `Path.exists`, `Path.unlink`) is case-insensitive
  while the stored names keep their case, and `os.rename`/`Path.rename`
  follows the Windows semantics: renaming onto an existing file other than the
  source itself raises `FileExistsError`, renaming a missing source raises
  `FileNotFoundError`, and a rename onto the source's own name (possibly with
  different case) succeeds and records the destination's case.
* `Path.glob "*.png"` matches case-insensitively on Windows (`SCAN.PNG` is
  globbed), so it is modeled as filtering names whose lower-cased form ends
  with ".png".
* Python `sorted` is modeled by a stable insertion sort over the Python `<`
  order (`Path` objects compare case-sensitively by their string); only its
  permutation property is used by the proofs.
-/

namespace Gallery

/-- Filenames are modeled as lists of characters (the `name` of a `Path`). -/
abbrev Name := List Char

/-- Python string `<`: lexicographic comparison of code points. -/
def nameLt : Name → Name → Bool
  | [], [] => false
  | [], _ :: _ => true
  | _ :: _, [] => false
  | a :: as, b :: bs => if a < b then true else if b < a then false else nameLt as bs

/-- Python string `≤` (total preorder used by `sorted`). -/
def nameLe (a b : Name) : Bool := ! nameLt b a

/-- ASCII lower-casing of one character (`str.lower` restricted to ASCII). -/
def lowerChar (c : Char) : Char :=
  if 'A' ≤ c ∧ c ≤ 'Z' then Char.ofNat (c.toNat + 32) else c

/-- `str.lower` on a filename. -/
def lowerName (s : Name) : Name := s.map lowerChar

/-- All characters of a name are ASCII.  On ASCII names the modeled
`lowerName` agrees with Python's `str.lower` and with the Windows
filesystem's case folding; the rename theorems restrict to this domain. -/
def asciiName (s : Name) : Bool := s.all (fun c => decide (c.toNat < 128))

/-- `str.endswith suf`. -/
def endsWithName (s suf : Name) : Bool := decide (s.reverse.take suf.length = suf.reverse)

/-- `str.startswith p`. -/
def startsWithName (s p : Name) : Bool := decide (s.take p.length = p)

/-- Zero-padded decimal digits of `n`, width exactly `w` (valid for `n < 10^w`). -/
def padDigits : Nat → Nat → List Char
  | 0, _ => []
  | w + 1, n => Char.ofNat (48 + n / 10 ^ w) :: padDigits w (n % 10 ^ w)

/-- Fuel-driven decimal length computation. -/
def digitLenGo : Nat → Nat → Nat
  | 0, _ => 1
  | fuel + 1, n => if n < 10 then 1 else digitLenGo fuel (n / 10) + 1

/-- Number of decimal digits of `n` (length of Python `str(n)`). -/
def digitLen (n : Nat) : Nat := digitLenGo n n

/-- Python `f"{n:0{w}d}"`: decimal representation of `n` left-padded with `'0'`
to width `w` (wider numbers are printed in full). -/
def padNum (w n : Nat) : Name := padDigits (max w (digitLen n)) n

/-- The `".png"` extension. -/
def pngSuffix : Name := ".png".data

/-- The reserved phase-1 marker `"__tmp_renaming_"`. -/
def tmpMarker : Name := "__tmp_renaming_".data

/-- Phase-1 temporary filename `f"__tmp_renaming_{i:06d}.png"`. -/
def tmpName (i : Nat) : Name := tmpMarker ++ padNum 6 i ++ pngSuffix

/-- Final sequential filename `f"{i:0{digits}d}.png"`. -/
def finalName (digits i : Nat) : Name := padNum digits i ++ pngSuffix

example : padNum 3 7 = "007".data := by decide
example : padNum 3 1000 = "1000".data := by decide
example : padNum 6 12 = "000012".data := by decide
example : tmpName 2 = "__tmp_renaming_000002.png".data := by decide
example : finalName 3 5 = "005.png".data := by decide
example : endsWithName "a.png".data pngSuffix = true := by decide
example : endsWithName "a.txt".data pngSuffix = false := by decide
example : lowerName "A0Z.PNG".data = "a0z.png".data := by decide
example : lowerName "__TMP_RENAMING_000001.PNG".data = "__tmp_renaming_000001.png".data := by
  decide
example : endsWithName (lowerName "SCAN.PNG".data) pngSuffix = true := by decide
example : nameLt "005.png".data "__tmp_renaming_000001.png".data = true := by decide

/-! ## Filesystem model

The `full_pc` directory is an association list from filenames to file contents.
A real directory never holds two files of the same name, and the theorems track
this as `(keys fs).Nodup`. -/

abbrev FS (α : Type) := List (Name × α)

/-- The set of filenames present. -/
def keys {α : Type} : FS α → List Name
  | [] => []
  | (k, _) :: rest => k :: keys rest

theorem keys_nil {α : Type} : keys ([] : FS α) = [] := rfl

theorem keys_cons {α : Type} (k : Name) (v : α) (rest : FS α) :
    keys ((k, v) :: rest) = k :: keys rest := rfl

theorem keys_append {α : Type} (l l2 : FS α) : keys (l ++ l2) = keys l ++ keys l2 := by
  induction l with
  | nil => rfl
  | cons p rest ih => obtain ⟨k0, v0⟩ := p; simp [keys_cons, ih]

theorem mem_keys_of_mem {α : Type} {fs : FS α} {n : Name} {v : α}
    (h : (n, v) ∈ fs) : n ∈ keys fs := by
  induction fs with
  | nil => simp at h
  | cons p rest ih =>
    obtain ⟨k0, v0⟩ := p
    rcases List.mem_cons.mp h with h1 | h1
    · rw [Prod.ext_iff] at h1
      exact keys_cons _ _ _ ▸ List.mem_cons.mpr (Or.inl h1.1)
    · exact keys_cons _ _ _ ▸ List.mem_cons.mpr (Or.inr (ih h1))

/-- Hypothesis: no two files differ only by letter case (always true on the
case-insensitive filesystem the script targets). -/
abbrev LowerNodup {α : Type} (fs : FS α) : Prop := ((keys fs).map lowerName).Nodup

theorem keys_nodup_of_lowerNodup {α : Type} {fs : FS α} (h : LowerNodup fs) :
    (keys fs).Nodup := List.Nodup.of_map lowerName h

theorem lower_inj_on_keys {α : Type} {fs : FS α} (h : LowerNodup fs) :
    ∀ m ∈ keys fs, ∀ n ∈ keys fs, lowerName m = lowerName n → m = n := by
  intro m hm n hn he
  exact List.inj_on_of_nodup_map h hm hn he

theorem lowered_ne_of_ne {α : Type} {fs : FS α} (h : LowerNodup fs) {m n : Name}
    (hm : m ∈ keys fs) (hn : n ∈ keys fs) (hne : m ≠ n) :
    lowerName m ≠ lowerName n :=
  fun he => hne (lower_inj_on_keys h m hm n hn he)

/-- Content stored at a path; Windows name resolution is case-insensitive. -/
def lookupFS {α : Type} : FS α → Name → Option α
  | [], _ => none
  | (k, v) :: rest, n => if lowerName k = lowerName n then some v else lookupFS rest n

/-- `Path.exists` (case-insensitive on the targeted filesystem). -/
def existsFS {α : Type} (fs : FS α) (n : Name) : Bool := (lookupFS fs n).isSome

/-- `Path.unlink` / deletion of one path (case-insensitive resolution). -/
def removeFS {α : Type} (fs : FS α) (n : Name) : FS α :=
  fs.filter (fun p => decide (lowerName p.1 ≠ lowerName n))

/-- `Image.save` at a path: overwrites whatever was there (a case-variant
file is replaced; the saved file carries the given name's case). -/
def writeFS {α : Type} (fs : FS α) (n : Name) (v : α) : FS α := removeFS fs n ++ [(n, v)]

/-- `Path.rename` with the Windows semantics the script targets: name
resolution is case-insensitive; renaming a missing source raises
`FileNotFoundError`; renaming onto an existing file other than the source
itself raises `FileExistsError`; renaming the source onto its own name
(possibly with different case) succeeds and records the destination's case. -/
def renameFS {α : Type} (fs : FS α) (src dst : Name) : Except String (FS α) :=
  match lookupFS fs src with
  | none => .error "FileNotFoundError"
  | some v =>
    if lowerName src = lowerName dst then .ok (removeFS fs src ++ [(dst, v)])
    else if existsFS fs dst then .error "FileExistsError"
    else .ok (removeFS fs src ++ [(dst, v)])

theorem lookupFS_nil {α : Type} (n : Name) : lookupFS ([] : FS α) n = none := rfl

theorem lookupFS_cons {α : Type} (k : Name) (v : α) (rest : FS α) (n : Name) :
    lookupFS ((k, v) :: rest) n =
      if lowerName k = lowerName n then some v else lookupFS rest n := rfl

theorem removeFS_nil {α : Type} (k : Name) : removeFS ([] : FS α) k = [] := rfl

theorem removeFS_cons {α : Type} (k0 : Name) (v0 : α) (rest : FS α) (k : Name) :
    removeFS ((k0, v0) :: rest) k =
      if lowerName k0 = lowerName k then removeFS rest k
      else (k0, v0) :: removeFS rest k := by
  by_cases h : lowerName k0 = lowerName k <;> simp [removeFS, List.filter_cons, h]

theorem lookupFS_append_single {α : Type} (l : FS α) (k : Name) (v : α) (n : Name) :
    lookupFS (l ++ [(k, v)]) n =
      match lookupFS l n with
      | some w => some w
      | none => if lowerName k = lowerName n then some v else none := by
  induction l with
  | nil => rfl
  | cons p rest ih =>
    obtain ⟨k0, v0⟩ := p
    by_cases h : lowerName k0 = lowerName n <;> simp [lookupFS_cons, h, ih]

theorem lookupFS_removeFS {α : Type} (fs : FS α) (k n : Name) :
    lookupFS (removeFS fs k) n =
      if lowerName k = lowerName n then none else lookupFS fs n := by
  induction fs with
  | nil => by_cases h : lowerName k = lowerName n <;> simp [removeFS, lookupFS, h]
  | cons p rest ih =>
    obtain ⟨k0, v0⟩ := p
    rw [removeFS_cons]
    by_cases hk : lowerName k0 = lowerName k
    · rw [if_pos hk, ih, lookupFS_cons]
      by_cases hn : lowerName k = lowerName n
      · simp [hn]
      · have h2 : ¬ lowerName k0 = lowerName n := fun e => hn (hk.symm.trans e)
        simp [hn, h2]
    · rw [if_neg hk, lookupFS_cons, lookupFS_cons, ih]
      by_cases hn : lowerName k0 = lowerName n
      · have h2 : ¬ lowerName k = lowerName n := fun e => hk (hn.trans e.symm)
        simp [hn, h2]
      · simp [hn]

theorem lookup_isSome_iff {α : Type} (fs : FS α) (n : Name) :
    (lookupFS fs n).isSome = true ↔ lowerName n ∈ (keys fs).map lowerName := by
  induction fs with
  | nil => simp [lookupFS, keys_nil]
  | cons p rest ih =>
    obtain ⟨k0, v0⟩ := p
    rw [lookupFS_cons, keys_cons, List.map_cons, List.mem_cons]
    by_cases h : lowerName k0 = lowerName n
    · simp [h]
    · have h2 : ¬ lowerName n = lowerName k0 := fun e => h e.symm
      simp [h, h2, ih]

theorem lookupFS_eq_none_of_not_mem {α : Type} {fs : FS α} {n : Name}
    (h : lowerName n ∉ (keys fs).map lowerName) : lookupFS fs n = none := by
  cases hl : lookupFS fs n with
  | none => rfl
  | some v => exact absurd ((lookup_isSome_iff fs n).mp (by rw [hl]; rfl)) h

theorem exists_lookup_of_mem {α : Type} {fs : FS α} {n : Name} (h : n ∈ keys fs) :
    ∃ v, lookupFS fs n = some v := by
  have h1 : (lookupFS fs n).isSome = true :=
    (lookup_isSome_iff fs n).mpr (List.mem_map.mpr ⟨n, h, rfl⟩)
  cases hl : lookupFS fs n with
  | none => rw [hl] at h1; simp at h1
  | some v => exact ⟨v, rfl⟩

theorem lookupFS_eq_some_of_mem {α : Type} {fs : FS α} {n : Name} {v : α}
    (hnd : LowerNodup fs) (hm : (n, v) ∈ fs) : lookupFS fs n = some v := by
  induction fs with
  | nil => simp at hm
  | cons p rest ih =>
    obtain ⟨k0, v0⟩ := p
    have hnd2 : (lowerName k0 :: (keys rest).map lowerName).Nodup := hnd
    rw [List.nodup_cons] at hnd2
    rcases List.mem_cons.mp hm with h | h
    · rw [Prod.ext_iff] at h
      obtain ⟨h1, h2⟩ := h
      simp only at h1 h2
      subst h1; subst h2
      simp [lookupFS_cons]
    · have hne : ¬ lowerName k0 = lowerName n := by
        intro he
        refine hnd2.1 ?_
        rw [he]
        exact List.mem_map.mpr ⟨n, mem_keys_of_mem h, rfl⟩
      rw [lookupFS_cons, if_neg hne]
      exact ih hnd2.2 h

theorem removeFS_sublist {α : Type} (fs : FS α) (n : Name) :
    List.Sublist (removeFS fs n) fs :=
  List.filter_sublist fs

theorem keys_removeFS_sublist {α : Type} (fs : FS α) (n : Name) :
    List.Sublist (keys (removeFS fs n)) (keys fs) := by
  induction fs with
  | nil => simp [removeFS_nil, keys_nil]
  | cons p rest ih =>
    obtain ⟨k0, v0⟩ := p
    rw [removeFS_cons, keys_cons]
    by_cases h : lowerName k0 = lowerName n
    · rw [if_pos h]
      exact ih.cons k0
    · rw [if_neg h, keys_cons]
      exact ih.cons₂ k0

theorem keys_append_single {α : Type} (l : FS α) (k : Name) (v : α) :
    keys (l ++ [(k, v)]) = keys l ++ [k] := by rw [keys_append]; rfl

theorem mem_keys_removeFS {α : Type} (fs : FS α) (k n : Name) :
    n ∈ keys (removeFS fs k) ↔ n ∈ keys fs ∧ lowerName n ≠ lowerName k := by
  induction fs with
  | nil => simp [removeFS_nil, keys_nil]
  | cons p rest ih =>
    obtain ⟨k0, v0⟩ := p
    rw [removeFS_cons, keys_cons]
    by_cases h : lowerName k0 = lowerName k
    · rw [if_pos h, ih, List.mem_cons]
      constructor
      · rintro ⟨h1, h2⟩
        exact ⟨Or.inr h1, h2⟩
      · rintro ⟨h1 | h1, h2⟩
        · exact absurd (by rw [h1]; exact h) h2
        · exact ⟨h1, h2⟩
    · rw [if_neg h, keys_cons, List.mem_cons, ih, List.mem_cons]
      constructor
      · rintro (h1 | ⟨h1, h2⟩)
        · exact ⟨Or.inl h1, by rw [h1]; exact h⟩
        · exact ⟨Or.inr h1, h2⟩
      · rintro ⟨h1 | h1, h2⟩
        · exact Or.inl h1
        · exact Or.inr ⟨h1, h2⟩

theorem keys_removeFS_nodup {α : Type} {fs : FS α} (hnd : (keys fs).Nodup) (n : Name) :
    (keys (removeFS fs n)).Nodup := (keys_removeFS_sublist fs n).nodup hnd

theorem lowerNodup_removeFS {α : Type} {fs : FS α} (hnd : LowerNodup fs) (n : Name) :
    LowerNodup (removeFS fs n) :=
  ((keys_removeFS_sublist fs n).map lowerName).nodup hnd

theorem removeFS_eq_self {α : Type} {fs : FS α} {n : Name}
    (h : lowerName n ∉ (keys fs).map lowerName) : removeFS fs n = fs := by
  induction fs with
  | nil => rfl
  | cons p rest ih =>
    obtain ⟨k0, v0⟩ := p
    rw [keys_cons, List.map_cons, List.mem_cons, not_or] at h
    rw [removeFS_cons, if_neg (fun e => h.1 e.symm)]
    rw [ih h.2]

/-! ## Python `sorted`: a stable insertion sort -/

/-- Insert `x` in front of the first element not below it (stable). -/
def insertSorted {α : Type} (le : α → α → Bool) (x : α) : List α → List α
  | [] => [x]
  | y :: ys => if le x y then x :: y :: ys else y :: insertSorted le x ys

/-- Model of Python `sorted` (a stable comparison sort; only its permutation
property is relied upon by the proofs below). -/
def pySort {α : Type} (le : α → α → Bool) : List α → List α
  | [] => []
  | x :: xs => insertSorted le x (pySort le xs)

theorem insertSorted_perm {α : Type} (le : α → α → Bool) (x : α) (l : List α) :
    List.Perm (insertSorted le x l) (x :: l) := by
  induction l with
  | nil => exact List.Perm.refl _
  | cons y ys ih =>
    by_cases h : le x y
    · simp [insertSorted, h]
    · simp only [insertSorted, h, if_neg, Bool.false_eq_true, not_false_iff]
      exact (ih.cons y).trans (List.Perm.swap x y ys)

theorem pySort_perm {α : Type} (le : α → α → Bool) (l : List α) :
    List.Perm (pySort le l) l := by
  induction l with
  | nil => exact List.Perm.refl _
  | cons x xs ih => exact (insertSorted_perm le x (pySort le xs)).trans (ih.cons x)

/-! ## Listing the source images: `list_full_pc_images` -/

/-- `full_pc_dir.glob "*.png"`: on Windows the glob matches case-insensitively,
so it keeps the files whose lower-cased name ends in `".png"`. -/
def globPng {α : Type} (fs : FS α) : FS α :=
  fs.filter (fun p => endsWithName (lowerName p.1) pngSuffix)

/-- `sorted(files)`: `Path` objects compare by their string. -/
def sortByName {α : Type} (l : FS α) : FS α := pySort (fun a b => nameLe a.1 b.1) l

/-- The dedup loop of `list_full_pc_images`: skip an entry whose lower-cased
name was already seen. -/
def dedupCaseInsensitive {α : Type} : FS α → List Name → FS α
  | [], _ => []
  | p :: rest, seen =>
    if lowerName p.1 ∈ seen then dedupCaseInsensitive rest seen
    else p :: dedupCaseInsensitive rest (lowerName p.1 :: seen)

/-- `list_full_pc_images`: sort the `*.png` files by name and deduplicate by
case-insensitive name, first occurrence winning. -/
def listFullPcImages {α : Type} (fs : FS α) : FS α :=
  dedupCaseInsensitive (sortByName (globPng fs)) []

theorem keys_sublist_of_sublist {α : Type} {l1 l2 : FS α}
    (h : List.Sublist l1 l2) : List.Sublist (keys l1) (keys l2) := by
  induction h with
  | slnil => exact List.Sublist.refl _
  | cons p _ ih => obtain ⟨k0, v0⟩ := p; exact ih.trans (List.sublist_cons_self k0 _)
  | cons₂ p _ ih => obtain ⟨k0, v0⟩ := p; exact ih.cons₂ k0

theorem keys_perm_of_perm {α : Type} {l1 l2 : FS α}
    (h : List.Perm l1 l2) : List.Perm (keys l1) (keys l2) := by
  induction h with
  | nil => exact List.Perm.refl _
  | cons p _ ih => obtain ⟨k0, v0⟩ := p; exact ih.cons k0
  | swap p q _ => obtain ⟨k0, v0⟩ := p; obtain ⟨k1, v1⟩ := q; exact List.Perm.swap k0 k1 _
  | trans _ _ ih1 ih2 => exact ih1.trans ih2

theorem globPng_sublist {α : Type} (fs : FS α) : List.Sublist (globPng fs) fs :=
  List.filter_sublist fs

theorem mem_globPng {α : Type} (fs : FS α) (p : Name × α) :
    p ∈ globPng fs ↔ p ∈ fs ∧ endsWithName (lowerName p.1) pngSuffix = true := by
  simp [globPng, List.mem_filter]

theorem sortByName_perm {α : Type} (l : FS α) : List.Perm (sortByName l) l :=
  pySort_perm _ l

theorem dedupCaseInsensitive_eq_self {α : Type} :
    ∀ (l : FS α) (seen : List Name),
      ((keys l).map lowerName).Nodup →
      (∀ n ∈ keys l, lowerName n ∉ seen) →
      dedupCaseInsensitive l seen = l := by
  intro l
  induction l with
  | nil => intro seen _ _; rfl
  | cons p rest ih =>
    intro seen hnd hseen
    obtain ⟨k0, v0⟩ := p
    rw [keys_cons, List.map_cons, List.nodup_cons] at hnd
    have h0 : lowerName k0 ∉ seen := hseen k0 (by rw [keys_cons]; exact List.mem_cons_self _ _)
    rw [dedupCaseInsensitive, if_neg h0]
    rw [ih (lowerName k0 :: seen) hnd.2]
    intro n hn
    rw [List.mem_cons, not_or]
    constructor
    · intro he
      exact hnd.1 (he ▸ List.mem_map.mpr ⟨n, hn, rfl⟩)
    · exact hseen n (by rw [keys_cons]; exact List.mem_cons.mpr (Or.inr hn))

theorem lowerNodup_keys_of_sublist {α : Type} {l1 l2 : FS α}
    (hs : List.Sublist l1 l2) (h : ((keys l2).map lowerName).Nodup) :
    ((keys l1).map lowerName).Nodup :=
  (((keys_sublist_of_sublist hs).map lowerName)).nodup h

theorem listFullPcImages_eq_sorted {α : Type} {fs : FS α} (h : LowerNodup fs) :
    listFullPcImages fs = sortByName (globPng fs) := by
  apply dedupCaseInsensitive_eq_self
  · have h1 : ((keys (globPng fs)).map lowerName).Nodup :=
      lowerNodup_keys_of_sublist (globPng_sublist fs) h
    have h2 := keys_perm_of_perm (sortByName_perm (globPng fs))
    exact ((h2.map lowerName).symm).nodup h1
  · intro n _ hn
    simp at hn

theorem exists_of_mem_keys {α : Type} {fs : FS α} {n : Name} (h : n ∈ keys fs) :
    ∃ v, (n, v) ∈ fs := by
  induction fs with
  | nil => simp [keys_nil] at h
  | cons p rest ih =>
    obtain ⟨k0, v0⟩ := p
    rw [keys_cons, List.mem_cons] at h
    rcases h with h | h
    · exact ⟨v0, by rw [h]; exact List.mem_cons_self _ _⟩
    · obtain ⟨v, hv⟩ := ih h
      exact ⟨v, List.mem_cons.mpr (Or.inr hv)⟩

theorem mem_keys_listFullPcImages {α : Type} {fs : FS α} (h : LowerNodup fs) (n : Name) :
    n ∈ keys (listFullPcImages fs) ↔
      n ∈ keys fs ∧ endsWithName (lowerName n) pngSuffix = true := by
  rw [listFullPcImages_eq_sorted h]
  rw [(keys_perm_of_perm (sortByName_perm (globPng fs))).mem_iff]
  constructor
  · intro hm
    obtain ⟨v, hv⟩ := exists_of_mem_keys hm
    rw [mem_globPng] at hv
    exact ⟨mem_keys_of_mem hv.1, hv.2⟩
  · intro ⟨hm, hpng⟩
    obtain ⟨v, hv⟩ := exists_of_mem_keys hm
    exact mem_keys_of_mem ((mem_globPng fs (n, v)).mpr ⟨hv, hpng⟩)

theorem mem_listFullPcImages {α : Type} {fs : FS α} (h : LowerNodup fs) (p : Name × α) :
    p ∈ listFullPcImages fs ↔ p ∈ fs ∧ endsWithName (lowerName p.1) pngSuffix = true := by
  rw [listFullPcImages_eq_sorted h, (sortByName_perm (globPng fs)).mem_iff, mem_globPng]

theorem listFullPcImages_keys_nodup {α : Type} {fs : FS α} (h : LowerNodup fs) :
    (keys (listFullPcImages fs)).Nodup := by
  rw [listFullPcImages_eq_sorted h]
  apply ((keys_perm_of_perm (sortByName_perm (globPng fs))).symm.nodup)
  exact keys_nodup_of_lowerNodup (lowerNodup_keys_of_sublist (globPng_sublist fs) h)

/-! ## Facts about the generated filename schemes -/

theorem toNat_ofNat_of_lt {n : Nat} (h : n < 55296) : (Char.ofNat n).toNat = n := by
  have hv : n.isValidChar := Or.inl h
  rw [Char.ofNat, dif_pos hv]
  simp [Char.ofNatAux, Char.toNat, UInt32.toNat, UInt32.ofNatCore]

theorem padDigits_length : ∀ (w n : Nat), (padDigits w n).length = w := by
  intro w
  induction w with
  | zero => intro n; rfl
  | succ w ih => intro n; rw [padDigits]; simp [ih]

theorem one_le_digitLenGo : ∀ (fuel n : Nat), 1 ≤ digitLenGo fuel n := by
  intro fuel
  induction fuel with
  | zero => intro n; exact Nat.le_refl 1
  | succ fuel ih =>
    intro n
    rw [digitLenGo]
    by_cases h : n < 10
    · rw [if_pos h]
    · rw [if_neg h]
      have := ih (n / 10)
      omega

theorem one_le_digitLen (n : Nat) : 1 ≤ digitLen n := one_le_digitLenGo n n

theorem lt_pow_digitLenGo : ∀ (fuel n : Nat), n ≤ fuel → n < 10 ^ digitLenGo fuel n := by
  intro fuel
  induction fuel with
  | zero =>
    intro n hn
    have h0 : n = 0 := Nat.le_zero.mp hn
    subst h0
    show 0 < 10 ^ digitLenGo 0 0
    norm_num [digitLenGo]
  | succ fuel ih =>
    intro n hn
    rw [digitLenGo]
    by_cases h : n < 10
    · rw [if_pos h, pow_one]; exact h
    · rw [if_neg h]
      push_neg at h
      have hdiv : n / 10 ≤ fuel := by
        have h1 : n / 10 < n := Nat.div_lt_self (by omega) (by omega)
        omega
      have h2 := ih (n / 10) hdiv
      have h3 : n < 10 * (n / 10) + 10 := by
        have := Nat.div_add_mod n 10
        have : n % 10 < 10 := Nat.mod_lt n (by omega)
        omega
      calc n < 10 * (n / 10) + 10 := h3
        _ ≤ 10 * (10 ^ digitLenGo fuel (n / 10) - 1) + 10 := by
            have : n / 10 ≤ 10 ^ digitLenGo fuel (n / 10) - 1 := by omega
            omega
        _ ≤ 10 ^ (digitLenGo fuel (n / 10) + 1) := by
            have h4 : 1 ≤ 10 ^ digitLenGo fuel (n / 10) := Nat.one_le_pow _ _ (by omega)
            rw [Nat.pow_succ]
            omega

theorem lt_pow_digitLen (n : Nat) : n < 10 ^ digitLen n := lt_pow_digitLenGo n n (Nat.le_refl n)

theorem padNum_length (w n : Nat) : (padNum w n).length = max w (digitLen n) :=
  padDigits_length _ _

/-- The value read back from a fixed-width decimal rendering. -/
def unpadVal : List Char → Nat
  | [] => 0
  | c :: rest => (c.toNat - 48) * 10 ^ rest.length + unpadVal rest

theorem unpadVal_padDigits : ∀ (w n : Nat), n < 10 ^ w → unpadVal (padDigits w n) = n := by
  intro w
  induction w with
  | zero => intro n hn; interval_cases n; rfl
  | succ w ih =>
    intro n hn
    have hpw : 0 < 10 ^ w := Nat.pos_pow_of_pos w (by norm_num)
    rw [padDigits, unpadVal, padDigits_length]
    have hdig : n / 10 ^ w ≤ 9 := by
      have h10 : n / 10 ^ w < 10 := by
        rw [Nat.div_lt_iff_lt_mul hpw]
        rw [Nat.pow_succ] at hn
        omega
      omega
    have hch : (Char.ofNat (48 + n / 10 ^ w)).toNat = 48 + n / 10 ^ w :=
      toNat_ofNat_of_lt (by omega)
    rw [hch, ih (n % 10 ^ w) (Nat.mod_lt n hpw), Nat.add_sub_cancel_left, Nat.mul_comm]
    exact Nat.div_add_mod n (10 ^ w)

theorem padNum_inj {w i j : Nat} (h : padNum w i = padNum w j) : i = j := by
  have hlen : max w (digitLen i) = max w (digitLen j) := by
    have := congrArg List.length h
    rwa [padNum_length, padNum_length] at this
  have hi : i < 10 ^ max w (digitLen i) :=
    Nat.lt_of_lt_of_le (lt_pow_digitLen i)
      (Nat.pow_le_pow_right (by omega) (Nat.le_max_right _ _))
  have hj : j < 10 ^ max w (digitLen j) :=
    Nat.lt_of_lt_of_le (lt_pow_digitLen j)
      (Nat.pow_le_pow_right (by omega) (Nat.le_max_right _ _))
  have h1 := unpadVal_padDigits (max w (digitLen i)) i hi
  have h2 := unpadVal_padDigits (max w (digitLen j)) j hj
  simp only [padNum] at h
  have h3 := congrArg unpadVal h
  rw [h1, h2] at h3
  exact h3

theorem tmpName_inj {i j : Nat} (h : tmpName i = tmpName j) : i = j := by
  rw [tmpName, tmpName] at h
  have h1 := List.append_cancel_right h
  exact padNum_inj (List.append_cancel_left h1)

theorem finalName_inj {d i j : Nat} (h : finalName d i = finalName d j) : i = j := by
  rw [finalName, finalName] at h
  exact padNum_inj (List.append_cancel_right h)

theorem endsWithName_append (a suf : Name) : endsWithName (a ++ suf) suf = true := by
  rw [endsWithName, decide_eq_true_eq, List.reverse_append]
  have : suf.length = suf.reverse.length := (List.length_reverse suf).symm
  rw [this, List.take_left]

theorem tmpName_png (i : Nat) : endsWithName (tmpName i) pngSuffix = true := by
  rw [tmpName]
  exact endsWithName_append _ _

theorem finalName_png (d i : Nat) : endsWithName (finalName d i) pngSuffix = true :=
  endsWithName_append _ _

theorem lowerChar_eq_self_of_lt {c : Char} (h : c.toNat < 65) : lowerChar c = c := by
  rw [lowerChar, if_neg]
  rintro ⟨h1, _⟩
  rw [Char.le_def, UInt32.le_def, BitVec.le_def] at h1
  have h2 : (('A').val).toBitVec.toNat = 65 := rfl
  have h3 : c.toNat = c.val.toBitVec.toNat := rfl
  omega

theorem padDigits_toNat_le : ∀ (w n : Nat), n < 10 ^ w →
    ∀ c ∈ padDigits w n, 48 ≤ c.toNat ∧ c.toNat ≤ 57 := by
  intro w
  induction w with
  | zero => intro n _ c hc; simp [padDigits] at hc
  | succ w ih =>
    intro n hn c hc
    have hpw : 0 < 10 ^ w := Nat.pos_pow_of_pos w (by norm_num)
    rw [padDigits] at hc
    have hdig : n / 10 ^ w ≤ 9 := by
      have h10 : n / 10 ^ w < 10 := by
        rw [Nat.div_lt_iff_lt_mul hpw]
        rw [Nat.pow_succ] at hn
        omega
      omega
    rcases List.mem_cons.mp hc with he | he
    · rw [he, toNat_ofNat_of_lt
        (Nat.lt_of_le_of_lt (Nat.add_le_add_left hdig 48) (by norm_num))]
      exact ⟨Nat.le_add_right 48 _,
        Nat.le_trans (Nat.add_le_add_left hdig 48) (by norm_num)⟩
    · exact ih (n % 10 ^ w) (Nat.mod_lt n hpw) c he

theorem lowerName_eq_self {s : Name} (h : ∀ c ∈ s, lowerChar c = c) : lowerName s = s := by
  rw [lowerName, List.map_congr_left h]
  exact List.map_id' s

theorem lowerName_append (a b : Name) :
    lowerName (a ++ b) = lowerName a ++ lowerName b := by simp [lowerName]

theorem lowerName_padNum (w n : Nat) : lowerName (padNum w n) = padNum w n := by
  apply lowerName_eq_self
  intro c hc
  rw [padNum] at hc
  have hi : n < 10 ^ max w (digitLen n) :=
    Nat.lt_of_lt_of_le (lt_pow_digitLen n)
      (Nat.pow_le_pow_right (by omega) (Nat.le_max_right _ _))
  have hb := padDigits_toNat_le (max w (digitLen n)) n hi c hc
  exact lowerChar_eq_self_of_lt (by omega)

theorem lowerName_pngSuffix : lowerName pngSuffix = pngSuffix := by decide

theorem lowerName_tmpMarker : lowerName tmpMarker = tmpMarker := by decide

theorem lowerName_finalName (d i : Nat) : lowerName (finalName d i) = finalName d i := by
  rw [finalName, lowerName_append, lowerName_padNum, lowerName_pngSuffix]

theorem lowerName_tmpName (i : Nat) : lowerName (tmpName i) = tmpName i := by
  rw [tmpName, lowerName_append, lowerName_append, lowerName_tmpMarker,
    lowerName_padNum, lowerName_pngSuffix]

theorem asciiName_of_lt {s : Name} (h : ∀ c ∈ s, c.toNat < 128) : asciiName s = true := by
  rw [asciiName, List.all_eq_true]
  intro c hc
  exact decide_eq_true (h c hc)

theorem finalName_chars_ascii (d i : Nat) : ∀ c ∈ finalName d i, c.toNat < 128 := by
  intro c hc
  rw [finalName] at hc
  rcases List.mem_append.mp hc with h | h
  · rw [padNum] at h
    have hi : i < 10 ^ max d (digitLen i) :=
      Nat.lt_of_lt_of_le (lt_pow_digitLen i)
        (Nat.pow_le_pow_right (by omega) (Nat.le_max_right _ _))
    have hb := padDigits_toNat_le (max d (digitLen i)) i hi c h
    omega
  · have h2 : pngSuffix = ['.', 'p', 'n', 'g'] := by decide
    rw [h2] at h
    rcases (by simpa using h : c = '.' ∨ c = 'p' ∨ c = 'n' ∨ c = 'g') with
      rfl | rfl | rfl | rfl <;> decide

theorem startsWithName_append (pre rest : Name) :
    startsWithName (pre ++ rest) pre = true := by
  rw [startsWithName, decide_eq_true_eq]
  exact List.take_left pre rest

theorem tmpName_marker (i : Nat) : startsWithName (tmpName i) tmpMarker = true := by
  rw [tmpName, List.append_assoc]
  exact startsWithName_append _ _

theorem exists_cons_of_padNum (w n : Nat) :
    ∃ c rest, padNum w n = c :: rest ∧ c.toNat ≤ 57 ∧ 48 ≤ c.toNat := by
  have h1 : 1 ≤ max w (digitLen n) := (one_le_digitLen n).trans (Nat.le_max_right _ _)
  rw [padNum]
  obtain ⟨W, hW⟩ : ∃ W, max w (digitLen n) = W + 1 :=
    ⟨max w (digitLen n) - 1, (Nat.succ_pred_eq_of_pos h1).symm⟩
  rw [hW, padDigits]
  have hlt : n < 10 ^ (W + 1) := by
    have : n < 10 ^ max w (digitLen n) :=
      Nat.lt_of_lt_of_le (lt_pow_digitLen n)
        (Nat.pow_le_pow_right (by omega) (Nat.le_max_right _ _))
    rwa [hW] at this
  have hpW : 0 < 10 ^ W := Nat.pos_pow_of_pos W (by norm_num)
  have hdig : n / 10 ^ W ≤ 9 := by
    have h10 : n / 10 ^ W < 10 := by
      rw [Nat.div_lt_iff_lt_mul hpW]
      rw [Nat.pow_succ] at hlt
      omega
    omega
  have hvalid : 48 + n / 10 ^ W < 55296 :=
    Nat.lt_of_le_of_lt (Nat.add_le_add_left hdig 48) (by norm_num)
  refine ⟨_, _, rfl, ?_, ?_⟩
  · rw [toNat_ofNat_of_lt hvalid]
    exact Nat.add_le_add_left hdig 48
  · rw [toNat_ofNat_of_lt hvalid]
    exact Nat.le_add_right 48 _

theorem finalName_not_marker (d i : Nat) :
    startsWithName (finalName d i) tmpMarker = false := by
  obtain ⟨c, rest, hpd, hle, hge⟩ := exists_cons_of_padNum d i
  rw [finalName, hpd, startsWithName, decide_eq_false_iff_not]
  intro h
  have hlen15 : tmpMarker.length = 15 := by decide
  rw [hlen15] at h
  have hc : (c :: rest ++ pngSuffix).take 15 = c :: ((rest ++ pngSuffix).take 14) := rfl
  rw [hc] at h
  have hm : tmpMarker = '_' :: "_tmp_renaming_".data := by decide
  rw [hm] at h
  injection h with h1 h2
  rw [h1] at hle
  revert hle
  decide

theorem tmpName_ne_finalName (i d j : Nat) : tmpName i ≠ finalName d j := by
  intro h
  have h1 := tmpName_marker i
  rw [h, finalName_not_marker] at h1
  exact Bool.false_ne_true h1

/-! ## The two-phase rename: `rename_full_pc_sequential` -/

/-- Phase 1 of `rename_full_pc_sequential`: rename each listed file, in order,
to `f"__tmp_renaming_{i:06d}.png"`, collecting the temporary names. -/
def phase1 {α : Type} : FS α → List Name → Nat → Except String (FS α × List Name)
  | fs, [], _ => .ok (fs, [])
  | fs, n :: rest, i =>
    match renameFS fs n (tmpName i) with
    | .error e => .error e
    | .ok fs1 =>
      match phase1 fs1 rest (i + 1) with
      | .error e => .error e
      | .ok (fs2, tmps) => .ok (fs2, tmpName i :: tmps)

/-- Phase 2 of `rename_full_pc_sequential`: rename the (sorted) temporaries to
`f"{i:0{digits}d}.png"`, deleting a pre-existing destination first. -/
def phase2 {α : Type} (digits : Nat) : FS α → List Name → Nat → Except String (FS α × List Name)
  | fs, [], _ => .ok (fs, [])
  | fs, t :: rest, i =>
    match renameFS (if existsFS fs (finalName digits i) then removeFS fs (finalName digits i) else fs)
        t (finalName digits i) with
    | .error e => .error e
    | .ok fs1 =>
      match phase2 digits fs1 rest (i + 1) with
      | .error e => .error e
      | .ok (fs2, finals) => .ok (fs2, finalName digits i :: finals)

/-- `rename_full_pc_sequential`: list the images, stage every file to a unique
temporary name, then rename the sorted temporaries to the final sequential
names.  Returns the updated directory and the list of final paths in order. -/
def renameFullPcSequential {α : Type} (fs : FS α) (digits : Nat) :
    Except String (FS α × List Name) :=
  if (listFullPcImages fs).isEmpty then .ok (fs, [])
  else
    match phase1 fs (keys (listFullPcImages fs)) 1 with
    | .error e => .error e
    | .ok (fs1, temps) => phase2 digits fs1 (pySort nameLe temps) 1

example : renameFS [("a.png".data, 0)] "a.png".data "A.PNG".data =
    .ok [("A.PNG".data, 0)] := rfl
example : renameFullPcSequential
    [("000.png".data, 0), ("__TMP_RENAMING_000001.PNG".data, 1)] 3 =
    .error "FileExistsError" := rfl
example : renameFullPcSequential [("photo.png".data, 0), ("SCAN.PNG".data, 1)] 3 =
    .ok ([("001.png".data, 1), ("002.png".data, 0)],
      ["001.png".data, "002.png".data]) := rfl

/-- The name sequence `f i, f (i+1), ..., f (i+c-1)`. -/
def seqNames (f : Nat → Name) : Nat → Nat → List Name
  | _, 0 => []
  | i, c + 1 => f i :: seqNames f (i + 1) c

theorem seqNames_succ (f : Nat → Name) (i c : Nat) :
    seqNames f i (c + 1) = f i :: seqNames f (i + 1) c := rfl

theorem seqNames_length (f : Nat → Name) : ∀ (c i : Nat), (seqNames f i c).length = c := by
  intro c
  induction c with
  | zero => intro i; rfl
  | succ c ih => intro i; rw [seqNames_succ, List.length_cons, ih]

theorem mem_seqNames (f : Nat → Name) :
    ∀ (c i : Nat) (m : Name), m ∈ seqNames f i c ↔ ∃ k, k < c ∧ m = f (i + k) := by
  intro c
  induction c with
  | zero => intro i m; simp [seqNames]
  | succ c ih =>
    intro i m
    rw [seqNames_succ, List.mem_cons, ih (i + 1) m]
    constructor
    · rintro (h | ⟨k, hk, he⟩)
      · exact ⟨0, by omega, by rw [Nat.add_zero]; exact h⟩
      · exact ⟨k + 1, by omega, by rw [show i + (k + 1) = i + 1 + k by omega]; exact he⟩
    · rintro ⟨k, hk, he⟩
      cases k with
      | zero => exact Or.inl (by rw [Nat.add_zero] at he; exact he)
      | succ k =>
        exact Or.inr ⟨k, by omega, by rw [show i + 1 + k = i + (k + 1) by omega]; exact he⟩

/-- Singleton-append nodup characterization used for the staged renames. -/
theorem nodup_append_singleton {β : Type} {x : β} {l : List β} :
    (l ++ [x]).Nodup ↔ l.Nodup ∧ x ∉ l := by
  simp [List.nodup_append]

theorem renameFS_ok {α : Type} {fs : FS α} {src dst : Name} {v : α}
    (hv : lookupFS fs src = some v)
    (hd : lowerName dst ∉ (keys fs).map lowerName) :
    renameFS fs src dst = .ok (removeFS fs src ++ [(dst, v)]) := by
  by_cases he : lowerName src = lowerName dst
  · simp [renameFS, hv, he]
  · have hex : existsFS fs dst = false := by
      rw [existsFS, lookupFS_eq_none_of_not_mem hd]
      rfl
    simp [renameFS, hv, he, hex]

theorem lookupFS_rename_core {α : Type} (fs : FS α) (src dst : Name) (v : α) (x : Name)
    (hd : lowerName dst ∉ (keys fs).map lowerName) :
    lookupFS (removeFS fs src ++ [(dst, v)]) x =
      if lowerName dst = lowerName x then some v
      else if lowerName src = lowerName x then none
      else lookupFS fs x := by
  rw [lookupFS_append_single, lookupFS_removeFS]
  by_cases hdx : lowerName dst = lowerName x
  · by_cases hsx : lowerName src = lowerName x
    · simp [hsx, hdx]
    · have hnone : lookupFS fs x = none := by
        apply lookupFS_eq_none_of_not_mem
        rw [← hdx]
        exact hd
      simp [hsx, hdx, hnone]
  · by_cases hsx : lowerName src = lowerName x
    · simp [hsx, hdx]
    · cases h : lookupFS fs x with
      | none => simp [hsx, hdx, h]
      | some w => simp [hsx, hdx, h]

theorem mem_keys_rename_core {α : Type} (fs : FS α) (src dst : Name) (v : α) (m : Name) :
    m ∈ keys (removeFS fs src ++ [(dst, v)]) ↔
      (m ∈ keys fs ∧ lowerName m ≠ lowerName src) ∨ m = dst := by
  rw [keys_append_single, List.mem_append, mem_keys_removeFS]
  simp

theorem lowerNodup_rename_core {α : Type} {fs : FS α} (hnd : LowerNodup fs)
    {src dst : Name} (hd : lowerName dst ∉ (keys fs).map lowerName) (v : α) :
    LowerNodup (removeFS fs src ++ [(dst, v)]) := by
  show ((keys (removeFS fs src ++ [(dst, v)])).map lowerName).Nodup
  rw [keys_append_single, List.map_append, List.map_singleton, nodup_append_singleton]
  refine ⟨lowerNodup_removeFS hnd src, ?_⟩
  intro hm
  exact hd (((keys_removeFS_sublist fs src).map lowerName).subset hm)

/-- Behaviour of phase 1 on a directory holding every listed file, no
directory name matching the temporary scheme (case-insensitively) at or above
the start index. -/
theorem phase1_spec {α : Type} :
    ∀ (L : List Name) (i : Nat) (fs : FS α),
      LowerNodup fs → L.Nodup →
      (∀ n ∈ L, n ∈ keys fs) →
      (∀ j, i ≤ j → tmpName j ∉ (keys fs).map lowerName) →
      ∃ fs1,
        phase1 fs L i = .ok (fs1, seqNames tmpName i L.length) ∧
        LowerNodup fs1 ∧
        (seqNames tmpName i L.length).map (lookupFS fs1) = L.map (lookupFS fs) ∧
        (∀ m, m ∈ keys fs1 ↔
          ((m ∈ keys fs ∧ m ∉ L) ∨ m ∈ seqNames tmpName i L.length)) ∧
        (∀ m, (∀ n ∈ L, lowerName m ≠ lowerName n) →
          (∀ j, i ≤ j → lowerName m ≠ tmpName j) →
          lookupFS fs1 m = lookupFS fs m) := by
  intro L
  induction L with
  | nil =>
    intro i fs hnd _ _ _
    exact ⟨fs, rfl, hnd, rfl, fun m => by simp [seqNames], fun m _ _ => rfl⟩
  | cons n rest ih =>
    intro i fs hnd hL hsub htmp
    have hnmem : n ∈ keys fs := hsub n (List.mem_cons_self n rest)
    obtain ⟨v, hv⟩ := exists_lookup_of_mem hnmem
    have htmpi : tmpName i ∉ (keys fs).map lowerName := htmp i (Nat.le_refl i)
    have hdsti : lowerName (tmpName i) ∉ (keys fs).map lowerName := by
      rw [lowerName_tmpName]
      exact htmpi
    have hKlow : ∀ m ∈ keys fs, lowerName m ∈ (keys fs).map lowerName :=
      fun m hm => List.mem_map.mpr ⟨m, hm, rfl⟩
    have hrn : renameFS fs n (tmpName i) = .ok (removeFS fs n ++ [(tmpName i, v)]) :=
      renameFS_ok hv hdsti
    have hndA : LowerNodup (removeFS fs n ++ [(tmpName i, v)]) :=
      lowerNodup_rename_core hnd hdsti v
    have hmemA : ∀ m, m ∈ keys (removeFS fs n ++ [(tmpName i, v)]) ↔
        (m ∈ keys fs ∧ lowerName m ≠ lowerName n) ∨ m = tmpName i :=
      fun m => mem_keys_rename_core fs n (tmpName i) v m
    have hlookA : ∀ x, lookupFS (removeFS fs n ++ [(tmpName i, v)]) x =
        if lowerName (tmpName i) = lowerName x then some v
        else if lowerName n = lowerName x then none
        else lookupFS fs x :=
      fun x => lookupFS_rename_core fs n (tmpName i) v x hdsti
    have hrest : rest.Nodup := (List.nodup_cons.mp hL).2
    have hnrest : n ∉ rest := (List.nodup_cons.mp hL).1
    have hsubA : ∀ m ∈ rest, m ∈ keys (removeFS fs n ++ [(tmpName i, v)]) := by
      intro m hm
      have h1 : m ∈ keys fs := hsub m (List.mem_cons.mpr (Or.inr hm))
      have h2 : m ≠ n := fun e => hnrest (e ▸ hm)
      exact (hmemA m).mpr (Or.inl ⟨h1, lowered_ne_of_ne hnd h1 hnmem h2⟩)
    have htmpA : ∀ j, i + 1 ≤ j →
        tmpName j ∉ (keys (removeFS fs n ++ [(tmpName i, v)])).map lowerName := by
      intro j hj hmem
      obtain ⟨m, hm, he⟩ := List.mem_map.mp hmem
      rcases (hmemA m).mp hm with ⟨h1, _⟩ | h1
      · exact htmp j (by omega) (he ▸ hKlow m h1)
      · rw [h1, lowerName_tmpName] at he
        have := tmpName_inj he
        omega
    obtain ⟨fs2, hrun, hnd2, hmap2, hmem2, hpres2⟩ :=
      ih (i + 1) (removeFS fs n ++ [(tmpName i, v)]) hndA hrest hsubA htmpA
    have htmpirest : tmpName i ∉ rest := by
      intro hm
      apply htmpi
      have h1 : tmpName i ∈ keys fs := hsub _ (List.mem_cons.mpr (Or.inr hm))
      have h2 := hKlow _ h1
      rwa [lowerName_tmpName] at h2
    refine ⟨fs2, ?_, hnd2, ?_, ?_, ?_⟩
    · simp only [phase1, hrn, hrun, List.length_cons, seqNames_succ]
    · rw [List.length_cons, seqNames_succ, List.map_cons, List.map_cons, hmap2]
      have hhead : lookupFS fs2 (tmpName i) = some v := by
        have hp1 : ∀ u ∈ rest, lowerName (tmpName i) ≠ lowerName u := by
          intro u hu he
          apply htmpi
          have h1 := hKlow _ (hsub _ (List.mem_cons.mpr (Or.inr hu)))
          rw [← he, lowerName_tmpName] at h1
          exact h1
        have hp2 : ∀ j, i + 1 ≤ j → lowerName (tmpName i) ≠ tmpName j := by
          intro j hj he
          rw [lowerName_tmpName] at he
          have := tmpName_inj he
          omega
        rw [hpres2 (tmpName i) hp1 hp2, hlookA, if_pos rfl]
      rw [hhead, hv]
      have htail : rest.map (lookupFS (removeFS fs n ++ [(tmpName i, v)])) =
          rest.map (lookupFS fs) := by
        apply List.map_congr_left
        intro m hm
        have h1 : m ∈ keys fs := hsub m (List.mem_cons.mpr (Or.inr hm))
        have h2 : ¬ lowerName (tmpName i) = lowerName m := by
          intro he
          apply htmpi
          have h3 := hKlow _ h1
          rw [← he, lowerName_tmpName] at h3
          exact h3
        have h3 : ¬ lowerName n = lowerName m := by
          intro he
          exact lowered_ne_of_ne hnd h1 hnmem (fun e => hnrest (e ▸ hm)) he.symm
        rw [hlookA, if_neg h2, if_neg h3]
      rw [htail]
    · intro m
      rw [hmem2 m, List.length_cons, seqNames_succ]
      simp only [List.mem_cons, not_or]
      constructor
      · rintro (⟨hmA, hmrest⟩ | hseq)
        · rcases (hmemA m).mp hmA with ⟨h1, h2⟩ | h1
          · exact Or.inl ⟨h1, fun e => h2 (by rw [e]), hmrest⟩
          · exact Or.inr (Or.inl h1)
        · exact Or.inr (Or.inr hseq)
      · rintro (⟨h1, hmn, hm2⟩ | h | hseq)
        · exact Or.inl ⟨(hmemA m).mpr (Or.inl ⟨h1, lowered_ne_of_ne hnd h1 hnmem hmn⟩), hm2⟩
        · exact Or.inl ⟨(hmemA m).mpr (Or.inr h), h ▸ htmpirest⟩
        · exact Or.inr hseq
    · intro m hml hj
      have hm1 : ∀ u ∈ rest, lowerName m ≠ lowerName u :=
        fun u hu => hml u (List.mem_cons.mpr (Or.inr hu))
      rw [hpres2 m hm1 (fun j hj2 => hj j (by omega))]
      rw [hlookA,
        if_neg (fun e => hj i (Nat.le_refl i)
          (by rw [lowerName_tmpName] at e; exact e.symm)),
        if_neg (fun e => hml n (List.mem_cons_self n rest) e.symm)]

/-- Behaviour of phase 2: the staged temporaries land on the sequential final
names, none of which exists beforehand (case-insensitively). -/
theorem phase2_spec {α : Type} (digits : Nat) :
    ∀ (T : List Name) (i : Nat) (fs : FS α),
      LowerNodup fs → T.Nodup →
      (∀ t ∈ T, t ∈ keys fs) →
      (∀ t ∈ T, startsWithName t tmpMarker = true) →
      (∀ t ∈ T, lowerName t = t) →
      (∀ j, i ≤ j → finalName digits j ∉ (keys fs).map lowerName) →
      ∃ fs1,
        phase2 digits fs T i = .ok (fs1, seqNames (finalName digits) i T.length) ∧
        LowerNodup fs1 ∧
        (seqNames (finalName digits) i T.length).map (lookupFS fs1) = T.map (lookupFS fs) ∧
        (∀ m, m ∈ keys fs1 ↔
          ((m ∈ keys fs ∧ m ∉ T) ∨ m ∈ seqNames (finalName digits) i T.length)) ∧
        (∀ m, (∀ t ∈ T, lowerName m ≠ lowerName t) →
          (∀ j, i ≤ j → lowerName m ≠ finalName digits j) →
          lookupFS fs1 m = lookupFS fs m) := by
  intro T
  induction T with
  | nil =>
    intro i fs hnd _ _ _ _ _
    exact ⟨fs, rfl, hnd, rfl, fun m => by simp [seqNames], fun m _ _ => rfl⟩
  | cons t rest ih =>
    intro i fs hnd hT hsub hmark hlow hfin
    have htmem : t ∈ keys fs := hsub t (List.mem_cons_self t rest)
    obtain ⟨v, hv⟩ := exists_lookup_of_mem htmem
    have hfi : finalName digits i ∉ (keys fs).map lowerName := hfin i (Nat.le_refl i)
    have hdsti : lowerName (finalName digits i) ∉ (keys fs).map lowerName := by
      rw [lowerName_finalName]
      exact hfi
    have hKlow : ∀ m ∈ keys fs, lowerName m ∈ (keys fs).map lowerName :=
      fun m hm => List.mem_map.mpr ⟨m, hm, rfl⟩
    have hex : existsFS fs (finalName digits i) = false := by
      rw [existsFS, lookupFS_eq_none_of_not_mem hdsti]
      rfl
    have hrn : renameFS fs t (finalName digits i) =
        .ok (removeFS fs t ++ [(finalName digits i, v)]) := renameFS_ok hv hdsti
    have hndA : LowerNodup (removeFS fs t ++ [(finalName digits i, v)]) :=
      lowerNodup_rename_core hnd hdsti v
    have hmemA : ∀ m, m ∈ keys (removeFS fs t ++ [(finalName digits i, v)]) ↔
        (m ∈ keys fs ∧ lowerName m ≠ lowerName t) ∨ m = finalName digits i :=
      fun m => mem_keys_rename_core fs t (finalName digits i) v m
    have hlookA : ∀ x, lookupFS (removeFS fs t ++ [(finalName digits i, v)]) x =
        if lowerName (finalName digits i) = lowerName x then some v
        else if lowerName t = lowerName x then none
        else lookupFS fs x :=
      fun x => lookupFS_rename_core fs t (finalName digits i) v x hdsti
    have hrest : rest.Nodup := (List.nodup_cons.mp hT).2
    have htrest : t ∉ rest := (List.nodup_cons.mp hT).1
    have hmarkrest : ∀ m ∈ rest, startsWithName m tmpMarker = true :=
      fun m hm => hmark m (List.mem_cons.mpr (Or.inr hm))
    have hlowrest : ∀ m ∈ rest, lowerName m = m :=
      fun m hm => hlow m (List.mem_cons.mpr (Or.inr hm))
    have hsubA : ∀ m ∈ rest, m ∈ keys (removeFS fs t ++ [(finalName digits i, v)]) := by
      intro m hm
      have h1 : m ∈ keys fs := hsub m (List.mem_cons.mpr (Or.inr hm))
      have h2 : m ≠ t := fun e => htrest (e ▸ hm)
      exact (hmemA m).mpr (Or.inl ⟨h1, lowered_ne_of_ne hnd h1 htmem h2⟩)
    have hfinA : ∀ j, i + 1 ≤ j →
        finalName digits j ∉
          (keys (removeFS fs t ++ [(finalName digits i, v)])).map lowerName := by
      intro j hj hmem
      obtain ⟨m, hm, he⟩ := List.mem_map.mp hmem
      rcases (hmemA m).mp hm with ⟨h1, _⟩ | h1
      · exact hfin j (by omega) (he ▸ hKlow m h1)
      · rw [h1, lowerName_finalName] at he
        have := finalName_inj he
        omega
    obtain ⟨fs2, hrun, hnd2, hmap2, hmem2, hpres2⟩ :=
      ih (i + 1) (removeFS fs t ++ [(finalName digits i, v)]) hndA hrest hsubA
        hmarkrest hlowrest hfinA
    have hfirest : finalName digits i ∉ rest := by
      intro hm
      have h1 := hmarkrest _ hm
      rw [finalName_not_marker] at h1
      exact Bool.false_ne_true h1
    refine ⟨fs2, ?_, hnd2, ?_, ?_, ?_⟩
    · simp only [phase2, hex, Bool.false_eq_true, if_false, hrn, hrun, List.length_cons,
        seqNames_succ]
    · rw [List.length_cons, seqNames_succ, List.map_cons, List.map_cons, hmap2]
      have hhead : lookupFS fs2 (finalName digits i) = some v := by
        have hp1 : ∀ u ∈ rest, lowerName (finalName digits i) ≠ lowerName u := by
          intro u hu he
          rw [lowerName_finalName, hlowrest u hu] at he
          have h1 := hmarkrest u hu
          rw [← he, finalName_not_marker] at h1
          exact Bool.false_ne_true h1
        have hp2 : ∀ j, i + 1 ≤ j →
            lowerName (finalName digits i) ≠ finalName digits j := by
          intro j hj he
          rw [lowerName_finalName] at he
          have := finalName_inj he
          omega
        rw [hpres2 (finalName digits i) hp1 hp2, hlookA, if_pos rfl]
      rw [hhead, hv]
      have htail : rest.map (lookupFS (removeFS fs t ++ [(finalName digits i, v)])) =
          rest.map (lookupFS fs) := by
        apply List.map_congr_left
        intro m hm
        have h1 : m ∈ keys fs := hsub m (List.mem_cons.mpr (Or.inr hm))
        have h2 : ¬ lowerName (finalName digits i) = lowerName m := by
          intro he
          rw [lowerName_finalName, hlowrest m hm] at he
          have h3 := hmarkrest m hm
          rw [← he, finalName_not_marker] at h3
          exact Bool.false_ne_true h3
        have h3 : ¬ lowerName t = lowerName m := by
          intro he
          exact lowered_ne_of_ne hnd h1 htmem (fun e => htrest (e ▸ hm)) he.symm
        rw [hlookA, if_neg h2, if_neg h3]
      rw [htail]
    · intro m
      rw [hmem2 m, List.length_cons, seqNames_succ]
      simp only [List.mem_cons, not_or]
      constructor
      · rintro (⟨hmA, hmrest⟩ | hseq)
        · rcases (hmemA m).mp hmA with ⟨h1, h2⟩ | h1
          · exact Or.inl ⟨h1, fun e => h2 (by rw [e]), hmrest⟩
          · exact Or.inr (Or.inl h1)
        · exact Or.inr (Or.inr hseq)
      · rintro (⟨h1, hmn, hm2⟩ | h | hseq)
        · exact Or.inl ⟨(hmemA m).mpr (Or.inl ⟨h1, lowered_ne_of_ne hnd h1 htmem hmn⟩), hm2⟩
        · exact Or.inl ⟨(hmemA m).mpr (Or.inr h), h ▸ hfirest⟩
        · exact Or.inr hseq
    · intro m hml hj
      have hm1 : ∀ u ∈ rest, lowerName m ≠ lowerName u :=
        fun u hu => hml u (List.mem_cons.mpr (Or.inr hu))
      rw [hpres2 m hm1 (fun j hj2 => hj j (by omega))]
      rw [hlookA,
        if_neg (fun e => hj i (Nat.le_refl i)
          (by rw [lowerName_finalName] at e; exact e.symm)),
        if_neg (fun e => hml t (List.mem_cons_self t rest) e.symm)]

theorem keys_length {α : Type} : ∀ (l : FS α), (keys l).length = l.length := by
  intro l
  induction l with
  | nil => rfl
  | cons p rest ih => obtain ⟨k0, v0⟩ := p; rw [keys_cons, List.length_cons, ih]; rfl

theorem map_lookup_keys {α : Type} (fs : FS α) :
    ∀ (l : FS α), (∀ p ∈ l, lookupFS fs p.1 = some p.2) →
      (keys l).map (lookupFS fs) = l.map (fun p => some p.2) := by
  intro l
  induction l with
  | nil => intro _; rfl
  | cons p rest ih =>
    intro h
    obtain ⟨k0, v0⟩ := p
    rw [keys_cons, List.map_cons, List.map_cons]
    rw [h (k0, v0) (List.mem_cons_self _ _)]
    rw [ih (fun q hq => h q (List.mem_cons.mpr (Or.inr hq)))]

theorem seqNames_final_map_lower (d : Nat) :
    ∀ (c i : Nat),
      (seqNames (finalName d) i c).map lowerName = seqNames (finalName d) i c := by
  intro c
  induction c with
  | zero => intro i; rfl
  | succ c ih => intro i; rw [seqNames_succ, List.map_cons, lowerName_finalName, ih]

theorem seqNames_nodup_of_inj {f : Nat → Name} (hf : ∀ {a b : Nat}, f a = f b → a = b) :
    ∀ (c i : Nat), (seqNames f i c).Nodup := by
  intro c
  induction c with
  | zero => intro i; exact List.nodup_nil
  | succ c ih =>
    intro i
    rw [seqNames_succ, List.nodup_cons]
    refine ⟨?_, ih (i + 1)⟩
    intro hm
    rw [mem_seqNames] at hm
    obtain ⟨k, hk, he⟩ := hm
    have := hf he
    omega

/-- Full behaviour of `rename_full_pc_sequential` on a directory of ASCII
filenames that are unique case-insensitively and avoid the reserved temporary
marker (case-insensitively): the run succeeds, returns exactly the final
sequential names, the directory afterwards holds the renamed images at those
names (plus the untouched files not matching the case-insensitive `*.png`
glob), each name holds exactly one content, and the multiset of contents over
the final names is exactly the multiset of contents of the deduplicated
sorted originals (no data loss).  The ASCII hypothesis delimits the domain on
which the modeled `lowerName` coincides with Python's `str.lower` and the
filesystem's case folding. -/
theorem rename_spec {α : Type} (fs : FS α) (digits : Nat)
    (hascii : ∀ p ∈ fs, asciiName p.1 = true)
    (hln : LowerNodup fs)
    (hnt : ∀ p ∈ fs, startsWithName (lowerName p.1) tmpMarker = false) :
    ∃ fs2,
      renameFullPcSequential fs digits =
        .ok (fs2, seqNames (finalName digits) 1 (listFullPcImages fs).length) ∧
      (keys fs2).Nodup ∧
      (∀ m, m ∈ keys fs2 ↔
        ((m ∈ keys fs ∧ endsWithName (lowerName m) pngSuffix = false) ∨
          m ∈ seqNames (finalName digits) 1 (listFullPcImages fs).length)) ∧
      List.Perm
        ((seqNames (finalName digits) 1 (listFullPcImages fs).length).map (lookupFS fs2))
        ((listFullPcImages fs).map (fun p => some p.2)) := by
  have hndfs : (keys fs).Nodup := keys_nodup_of_lowerNodup hln
  by_cases hempty : (listFullPcImages fs).isEmpty
  · have hnil : listFullPcImages fs = [] := List.isEmpty_iff.mp hempty
    refine ⟨fs, ?_, hndfs, ?_, ?_⟩
    · rw [renameFullPcSequential, if_pos hempty, hnil]
      rfl
    · intro m
      constructor
      · intro hm
        left
        refine ⟨hm, ?_⟩
        cases hpng : endsWithName (lowerName m) pngSuffix
        · rfl
        · exfalso
          have h1 := (mem_keys_listFullPcImages hln m).mpr ⟨hm, hpng⟩
          rw [hnil] at h1
          simp [keys_nil] at h1
      · rintro (⟨h1, _⟩ | h1)
        · exact h1
        · rw [hnil] at h1
          simp [seqNames] at h1
    · rw [hnil]
      rfl
  · have hLnd : (keys (listFullPcImages fs)).Nodup := listFullPcImages_keys_nodup hln
    have hLsub : ∀ n ∈ keys (listFullPcImages fs), n ∈ keys fs :=
      fun n hn => ((mem_keys_listFullPcImages hln n).mp hn).1
    have hLpng : ∀ n ∈ keys (listFullPcImages fs),
        endsWithName (lowerName n) pngSuffix = true :=
      fun n hn => ((mem_keys_listFullPcImages hln n).mp hn).2
    have htmp : ∀ j, 1 ≤ j → tmpName j ∉ (keys fs).map lowerName := by
      intro j _ hmem
      obtain ⟨m, hm, he⟩ := List.mem_map.mp hmem
      obtain ⟨v, hv⟩ := exists_of_mem_keys hm
      have h1 := hnt (m, v) hv
      rw [he, tmpName_marker] at h1
      simp at h1
    obtain ⟨fs1, hrun1, hnd1, hmap1, hmem1, _⟩ :=
      phase1_spec (keys (listFullPcImages fs)) 1 fs hln hLnd hLsub htmp
    have htmpsnd : (seqNames tmpName 1 (keys (listFullPcImages fs)).length).Nodup :=
      seqNames_nodup_of_inj (fun h => tmpName_inj h) _ 1
    have hperm :
        List.Perm (pySort nameLe (seqNames tmpName 1 (keys (listFullPcImages fs)).length))
          (seqNames tmpName 1 (keys (listFullPcImages fs)).length) :=
      pySort_perm nameLe _
    have hTnd := hperm.symm.nodup htmpsnd
    have hTsub : ∀ t ∈ pySort nameLe (seqNames tmpName 1 (keys (listFullPcImages fs)).length),
        t ∈ keys fs1 := by
      intro t ht
      have h1 := hperm.mem_iff.mp ht
      exact (hmem1 t).mpr (Or.inr h1)
    have hTmark : ∀ t ∈ pySort nameLe (seqNames tmpName 1 (keys (listFullPcImages fs)).length),
        startsWithName t tmpMarker = true := by
      intro t ht
      have h1 := hperm.mem_iff.mp ht
      rw [mem_seqNames] at h1
      obtain ⟨k, _, he⟩ := h1
      rw [he]
      exact tmpName_marker _
    have hTlow : ∀ t ∈ pySort nameLe (seqNames tmpName 1 (keys (listFullPcImages fs)).length),
        lowerName t = t := by
      intro t ht
      have h1 := hperm.mem_iff.mp ht
      rw [mem_seqNames] at h1
      obtain ⟨k, _, he⟩ := h1
      rw [he]
      exact lowerName_tmpName _
    have hfin1 : ∀ j, 1 ≤ j → finalName digits j ∉ (keys fs1).map lowerName := by
      intro j _ hmem
      obtain ⟨m, hm, he⟩ := List.mem_map.mp hmem
      rcases (hmem1 m).mp hm with ⟨h1, h2⟩ | h1
      · apply h2
        refine (mem_keys_listFullPcImages hln m).mpr ⟨h1, ?_⟩
        rw [he]
        exact finalName_png digits j
      · rw [mem_seqNames] at h1
        obtain ⟨k, _, hk⟩ := h1
        rw [hk, lowerName_tmpName] at he
        exact tmpName_ne_finalName (1 + k) digits j he
    obtain ⟨fs2, hrun2, hnd2, hmap2, hmem2, _⟩ :=
      phase2_spec digits
        (pySort nameLe (seqNames tmpName 1 (keys (listFullPcImages fs)).length)) 1 fs1
        hnd1 hTnd hTsub hTmark hTlow hfin1
    have hTlen :
        (pySort nameLe (seqNames tmpName 1 (keys (listFullPcImages fs)).length)).length =
          (listFullPcImages fs).length := by
      rw [hperm.length_eq, seqNames_length, keys_length]
    rw [hTlen] at hrun2 hmap2 hmem2
    refine ⟨fs2, ?_, keys_nodup_of_lowerNodup hnd2, ?_, ?_⟩
    · rw [renameFullPcSequential, if_neg hempty]
      rw [keys_length] at hrun1
      simp only [hrun1]
      rw [keys_length] at hrun2
      exact hrun2
    · intro m
      rw [hmem2 m]
      constructor
      · rintro (⟨hm1, hmT⟩ | hfinal)
        · rcases (hmem1 m).mp hm1 with ⟨h1, h2⟩ | h1
          · left
            refine ⟨h1, ?_⟩
            cases hpng : endsWithName (lowerName m) pngSuffix
            · rfl
            · exact absurd ((mem_keys_listFullPcImages hln m).mpr ⟨h1, hpng⟩) h2
          · exact absurd (hperm.mem_iff.mpr h1) hmT
        · exact Or.inr hfinal
      · rintro (⟨hmfs, hpngf⟩ | hfinal)
        · left
          constructor
          · refine (hmem1 m).mpr (Or.inl ⟨hmfs, ?_⟩)
            intro hmL
            rw [hLpng m hmL] at hpngf
            exact Bool.true_eq_false ▸ hpngf.symm ▸ rfl
          · intro hmT
            have h1 := hperm.mem_iff.mp hmT
            rw [mem_seqNames] at h1
            obtain ⟨k, _, he⟩ := h1
            rw [he, lowerName_tmpName, tmpName_png] at hpngf
            simp at hpngf
        · exact Or.inr hfinal
    · rw [hmap2]
      have hforall : ∀ p ∈ listFullPcImages fs, lookupFS fs p.1 = some p.2 := by
        intro p hp
        have h1 := (mem_listFullPcImages hln p).mp hp
        obtain ⟨k0, v0⟩ := p
        exact lookupFS_eq_some_of_mem hln h1.1
      have heq : (seqNames tmpName 1 (keys (listFullPcImages fs)).length).map (lookupFS fs1) =
          (listFullPcImages fs).map (fun p => some p.2) :=
        hmap1.trans (map_lookup_keys fs (listFullPcImages fs) hforall)
      have h2 := hperm.map (lookupFS fs1)
      rw [heq] at h2
      exact h2

/-! ## Image model

PIL images are modeled as a mode string, pixel dimensions, and a total pixel
function; only values at coordinates inside `width × height` are meaningful.
The LANCZOS resampling kernel is abstracted by coordinate subsampling, which
(like LANCZOS) is the identity whenever the size is unchanged; no claim below
depends on resampled pixel values at a changed size. -/

/-- One pixel, as an RGBA quadruple (an opaque pixel has `a = 255`). -/
structure RGBA where
  r : Nat
  g : Nat
  b : Nat
  a : Nat
  deriving DecidableEq

structure Img where
  mode : String
  width : Nat
  height : Nat
  px : Nat → Nat → RGBA

/-- `Image.new("RGB", (w, h), (r, g, b))`. -/
def imageNewRGB (w h rc gc bc : Nat) : Img :=
  ⟨"RGB", w, h, fun _ _ => ⟨rc, gc, bc, 255⟩⟩

/-- `im.convert(mode)` at the level of detail the script observes: converting
to `"RGB"` keeps the RGB channels and discards alpha (PIL does not composite
here); other target modes keep the stored quadruples (palette/gray decoding is
not modeled — no claim depends on those pixel values). -/
def convertImg (im : Img) (m : String) : Img :=
  if m = "RGB" then
    ⟨"RGB", im.width, im.height,
      fun x y => ⟨(im.px x y).r, (im.px x y).g, (im.px x y).b, 255⟩⟩
  else ⟨m, im.width, im.height, im.px⟩

/-- `im.resize((nw, nh), Image.LANCZOS)` (see the section comment on the
resampling abstraction). -/
def resizeImg (im : Img) (nw nh : Nat) : Img :=
  ⟨im.mode, nw, nh, fun x y => im.px (x * im.width / nw) (y * im.height / nh)⟩

/-- `resize_with_aspect(im, max_w, max_h)`: uniform scale
`min(max_w / w, max_h / h)` (Python float arithmetic modeled as exact rational
arithmetic), each new dimension truncated by `int(...)` and clamped below by
`max(1, _)`. -/
def resize_with_aspect (im : Img) (maxW maxH : Nat) : Img :=
  resizeImg im
    (max 1 (Int.toNat ⌊(im.width : ℚ) *
      min ((maxW : ℚ) / (im.width : ℚ)) ((maxH : ℚ) / (im.height : ℚ))⌋))
    (max 1 (Int.toNat ⌊(im.height : ℚ) *
      min ((maxW : ℚ) / (im.width : ℚ)) ((maxH : ℚ) / (im.height : ℚ))⌋))

/-- `dest.paste(src, (ox, oy))` with no mask: the pasted image is converted to
the destination mode — for an RGB destination the alpha channel is ignored —
and its pixels overwrite the rectangle at `(ox, oy)`. -/
def pasteImg (dest src : Img) (ox oy : Nat) : Img :=
  ⟨dest.mode, dest.width, dest.height, fun x y =>
    if ox ≤ x ∧ x < ox + src.width ∧ oy ≤ y ∧ y < oy + src.height then
      (if dest.mode = "RGB" then
        ⟨(src.px (x - ox) (y - oy)).r, (src.px (x - ox) (y - oy)).g,
          (src.px (x - ox) (y - oy)).b, 255⟩
      else src.px (x - ox) (y - oy))
    else dest.px x y⟩

/-- `make_letterboxed_thumb(src, cell_w, cell_h, bg)`. -/
def make_letterboxed_thumb (src : Img) (cellW cellH : Nat) (bgR bgG bgB : Nat) : Img :=
  pasteImg (imageNewRGB cellW cellH bgR bgG bgB) (resize_with_aspect src cellW cellH)
    ((cellW - (resize_with_aspect src cellW cellH).width) / 2)
    ((cellH - (resize_with_aspect src cellW cellH).height) / 2)

/-- `MAX_ITEMS`. -/
def MAX_ITEMS : Nat := 208

/-- `MAX_ATLAS_PAGES`. -/
def MAX_ATLAS_PAGES : Nat := 13

/-- `Image.new("RGB", PLACEHOLDER_SIZE, PLACEHOLDER_COLOR)`. -/
def placeholderImg : Img := imageNewRGB 2048 1152 128 128 128

/-- The write loop of `pad_with_placeholders`: for each index, delete a
pre-existing file at the sequential name and save a gray placeholder there. -/
def padGo (digits : Nat) : FS Img → List Nat → FS Img
  | fs, [] => fs
  | fs, i :: rest =>
    padGo digits
      (writeFS
        (if existsFS fs (finalName digits i) then removeFS fs (finalName digits i) else fs)
        (finalName digits i) placeholderImg) rest

/-- `pad_with_placeholders(full_pc_dir, current_count, target, digits)`:
iterate over `range(current_count + 1, target + 1)`. -/
def pad_with_placeholders (fs : FS Img) (currentCount target digits : Nat) : FS Img :=
  padGo digits fs (List.range' (currentCount + 1) (target - currentCount))

/-- The paste loop of `build_atlas`: row-major placement, stopping at the
first index whose row reaches `rows`. -/
def buildAtlasGo (cols rows cellW cellH : Nat) : Img → List Img → Nat → Img
  | atlas, [], _ => atlas
  | atlas, t :: rest, i =>
    if rows ≤ i / cols then atlas
    else
      buildAtlasGo cols rows cellW cellH
        (pasteImg atlas t ((i % cols) * cellW) ((i / cols) * cellH)) rest (i + 1)

/-- `build_atlas(thumbs, cols, rows, cell_w, cell_h)`. -/
def build_atlas (thumbs : List Img) (cols rows cellW cellH : Nat) : Img :=
  buildAtlasGo cols rows cellW cellH
    (imageNewRGB (cols * cellW) (rows * cellH) 0 0 0) thumbs 0

/-- One page slice `thumbs_cells[start:end]` of the atlas loop in `main`. -/
def pageSlice (thumbs : List Img) (perPage maxCells q : Nat) : List Img :=
  (thumbs.drop (q * perPage)).take (min (q * perPage + perPage) maxCells - q * perPage)

/-- The atlas page loop of `main` (step 4): slices of `per_page` cells,
stopping early on an empty slice, driven by the page counter and the
remaining-page budget. -/
def atlasSlices (thumbs : List Img) (perPage maxCells : Nat) : Nat → Nat → List (List Img)
  | _, 0 => []
  | page, fuel + 1 =>
    if (pageSlice thumbs perPage maxCells page).isEmpty then []
    else
      pageSlice thumbs perPage maxCells page ::
        atlasSlices thumbs perPage maxCells (page + 1) fuel

/-- The pages of cells rendered by `main`'s atlas stage:
`max_cells = min(len(thumbs_cells), MAX_ITEMS)`,
`max_pages = min(MAX_ATLAS_PAGES, ceil(max_cells / per_page))`. -/
def atlasPagesOf (thumbs : List Img) (cols rows : Nat) : List (List Img) :=
  atlasSlices thumbs (cols * rows) (min thumbs.length MAX_ITEMS) 0
    (min MAX_ATLAS_PAGES
      ((min thumbs.length MAX_ITEMS + cols * rows - 1) / (cols * rows)))

/-- Atlas filename `f"thumbs_page_{page+1:04d}.png"`. -/
def atlasName (p : Nat) : Name := "thumbs_page_".data ++ padNum 4 p ++ pngSuffix

/-- The mode normalization at the top of the per-target loop:
`im.convert("RGBA")` for alpha-carrying/palette modes, else `im.convert("RGB")`. -/
def normalizeMode (im0 : Img) : Img :=
  if im0.mode = "LA" ∨ im0.mode = "RGBA" ∨ im0.mode = "P" then convertImg im0 "RGBA"
  else convertImg im0 "RGB"

/-- The mobile downscale of the per-target loop: shrink by the long edge when
it exceeds `mobile_max`, never upscale. -/
def mobileResize (im : Img) (mobileMax : Nat) : Img :=
  if mobileMax < max im.width im.height then
    (if im.height ≤ im.width then resize_with_aspect im mobileMax (10 ^ 8)
    else resize_with_aspect im (10 ^ 8) mobileMax)
  else im

/-- The per-target loop of `main` (step 3): open the image, normalize the
mode, downscale for mobile only when the long edge exceeds the limit, save the
mobile copy under the same stem, and accumulate the letterboxed cell. -/
def processLoop (fullPc : FS Img) (cellW cellH mobileMax : Nat) :
    List Name → FS Img → List Img → Except String (FS Img × List Img)
  | [], mob, cells => .ok (mob, cells)
  | name :: rest, mob, cells =>
    match lookupFS fullPc name with
    | none => .error "FileNotFoundError"
    | some im0 =>
      processLoop fullPc cellW cellH mobileMax rest
        (writeFS mob name (mobileResize (normalizeMode im0) mobileMax))
        (cells ++ [make_letterboxed_thumb (normalizeMode im0) cellW cellH 0 0 0])

/-- The observable outcome of one `main` run: the two directories, the atlas
files, the thumbnail cells, and which console branch was taken. -/
structure MainResult where
  fullPc : FS Img
  fullMobile : FS Img
  atlases : List (Name × Img)
  thumbsCells : List Img
  warned : Bool
  padded : Bool

/-- `main` after argument parsing: sequential rename, placeholder padding up
to 208 when short (with a warning flag when over), the per-target loop over
`001.png .. 208.png`, and the atlas stage. -/
def mainModel (fullPc0 : FS Img) (cellW cellH cols rows mobileMax : Nat) :
    Except String MainResult :=
  match renameFullPcSequential fullPc0 3 with
  | .error e => .error e
  | .ok (fullPc1, renamed) =>
    match processLoop
        (if renamed.length < MAX_ITEMS then
          pad_with_placeholders fullPc1 renamed.length MAX_ITEMS 3
        else fullPc1)
        cellW cellH mobileMax (seqNames (finalName 3) 1 MAX_ITEMS) [] [] with
    | .error e => .error e
    | .ok (mobile, cells) =>
      .ok ⟨(if renamed.length < MAX_ITEMS then
          pad_with_placeholders fullPc1 renamed.length MAX_ITEMS 3
        else fullPc1), mobile,
        (atlasPagesOf cells cols rows).enum.map
          (fun q => (atlasName (q.1 + 1), build_atlas q.2 cols rows cellW cellH)),
        cells,
        decide (MAX_ITEMS < renamed.length),
        decide (renamed.length < MAX_ITEMS)⟩

/-! ## Placeholder padding facts -/

theorem lookupFS_writeFS {α : Type} (fs : FS α) (n : Name) (v : α) (m : Name) :
    lookupFS (writeFS fs n v) m =
      if lowerName n = lowerName m then some v else lookupFS fs m := by
  rw [writeFS, lookupFS_append_single, lookupFS_removeFS]
  by_cases h : lowerName n = lowerName m
  · simp [h]
  · cases hl : lookupFS fs m <;> simp [h, hl]

theorem mem_keys_writeFS {α : Type} (fs : FS α) (n : Name) (v : α) (m : Name) :
    m ∈ keys (writeFS fs n v) ↔
      (m ∈ keys fs ∧ lowerName m ≠ lowerName n) ∨ m = n := by
  rw [writeFS, mem_keys_rename_core]

theorem lookupFS_padStep (fs : FS Img) (dst : Name) (v : Img) (m : Name) :
    lookupFS (writeFS (if existsFS fs dst then removeFS fs dst else fs) dst v) m =
      if lowerName dst = lowerName m then some v else lookupFS fs m := by
  by_cases he : existsFS fs dst
  · rw [if_pos he, lookupFS_writeFS, lookupFS_removeFS]
    by_cases h : lowerName dst = lowerName m <;> simp [h]
  · rw [if_neg he, lookupFS_writeFS]

theorem padGo_lookup (digits : Nat) :
    ∀ (idx : List Nat) (fs : FS Img) (m : Name),
      lookupFS (padGo digits fs idx) m =
        if lowerName m ∈ idx.map (finalName digits) then some placeholderImg
        else lookupFS fs m := by
  intro idx
  induction idx with
  | nil => intro fs m; simp [padGo]
  | cons i rest ih =>
    intro fs m
    rw [padGo, ih, List.map_cons]
    by_cases h1 : lowerName m ∈ rest.map (finalName digits)
    · rw [if_pos h1, if_pos (List.mem_cons.mpr (Or.inr h1))]
    · rw [if_neg h1, lookupFS_padStep]
      by_cases h2 : lowerName (finalName digits i) = lowerName m
      · rw [if_pos h2]
        rw [lowerName_finalName] at h2
        rw [if_pos (List.mem_cons.mpr (Or.inl h2.symm))]
      · rw [if_neg h2, if_neg]
        intro hm
        rcases List.mem_cons.mp hm with e | e
        · exact h2 (by rw [lowerName_finalName]; exact e.symm)
        · exact h1 e

theorem pad_lookup_in (fs : FS Img) (currentCount target digits i : Nat)
    (h1 : currentCount + 1 ≤ i) (h2 : i ≤ target) :
    lookupFS (pad_with_placeholders fs currentCount target digits) (finalName digits i) =
      some placeholderImg := by
  rw [pad_with_placeholders, padGo_lookup, if_pos]
  rw [lowerName_finalName]
  exact List.mem_map.mpr ⟨i, List.mem_range'_1.mpr ⟨by omega, by omega⟩, rfl⟩

theorem pad_lookup_out (fs : FS Img) (currentCount target digits : Nat) (m : Name)
    (h : ∀ i, currentCount + 1 ≤ i → i ≤ target → lowerName m ≠ finalName digits i) :
    lookupFS (pad_with_placeholders fs currentCount target digits) m = lookupFS fs m := by
  rw [pad_with_placeholders, padGo_lookup, if_neg]
  intro hm
  obtain ⟨i, hi, he⟩ := List.mem_map.mp hm
  rw [List.mem_range'_1] at hi
  exact h i (by omega) (by omega) he.symm

theorem pad_noop (fs : FS Img) (currentCount target digits : Nat) (h : target ≤ currentCount) :
    pad_with_placeholders fs currentCount target digits = fs := by
  rw [pad_with_placeholders, show target - currentCount = 0 by omega]
  rfl

/-! ## Resize, paste, and atlas facts -/

theorem resize_with_aspect_mode (im : Img) (maxW maxH : Nat) :
    (resize_with_aspect im maxW maxH).mode = im.mode := rfl

theorem resize_with_aspect_width (im : Img) (maxW maxH : Nat) :
    (resize_with_aspect im maxW maxH).width =
      max 1 (Int.toNat ⌊(im.width : ℚ) *
        min ((maxW : ℚ) / (im.width : ℚ)) ((maxH : ℚ) / (im.height : ℚ))⌋) := rfl

theorem resize_with_aspect_height (im : Img) (maxW maxH : Nat) :
    (resize_with_aspect im maxW maxH).height =
      max 1 (Int.toNat ⌊(im.height : ℚ) *
        min ((maxW : ℚ) / (im.width : ℚ)) ((maxH : ℚ) / (im.height : ℚ))⌋) := rfl

/-- Resizing to the image's own size is the identity (for LANCZOS as for the
modeled sampler). -/
theorem resize_with_aspect_self (src : Img) (hw : 1 ≤ src.width) (hh : 1 ≤ src.height) :
    resize_with_aspect src src.width src.height = src := by
  obtain ⟨m, w, h, p⟩ := src
  simp only at hw hh
  have hw0 : ((w : ℚ)) ≠ 0 := Nat.cast_ne_zero.mpr (by omega)
  have hh0 : ((h : ℚ)) ≠ 0 := Nat.cast_ne_zero.mpr (by omega)
  have hsc : min ((w : ℚ) / (w : ℚ)) ((h : ℚ) / (h : ℚ)) = 1 := by
    rw [div_self hw0, div_self hh0, min_self]
  have h1 : ∀ n : Nat, 1 ≤ n →
      max 1 (Int.toNat ⌊(n : ℚ) * min ((w : ℚ) / (w : ℚ)) ((h : ℚ) / (h : ℚ))⌋) = n := by
    intro n hn
    rw [hsc, mul_one, Int.floor_natCast, Int.toNat_natCast]
    exact Nat.max_eq_right hn
  show resizeImg ⟨m, w, h, p⟩ _ _ = _
  rw [show (Img.mk m w h p).width = w from rfl, show (Img.mk m w h p).height = h from rfl]
  rw [h1 w hw, h1 h hh, resizeImg]
  simp only [Img.mk.injEq, true_and]
  funext x y
  rw [Nat.mul_div_cancel x (by omega : 0 < w), Nat.mul_div_cancel y (by omega : 0 < h)]

/-- The fitted image never exceeds the bounding box. -/
theorem resize_fit_le (src : Img) (cellW cellH : Nat) (hcw : 1 ≤ cellW) (hch : 1 ≤ cellH)
    (hw : 1 ≤ src.width) (hh : 1 ≤ src.height) :
    (resize_with_aspect src cellW cellH).width ≤ cellW ∧
    (resize_with_aspect src cellW cellH).height ≤ cellH := by
  have hw0 : (0 : ℚ) < (src.width : ℚ) := by exact_mod_cast Nat.lt_of_lt_of_le Nat.zero_lt_one hw
  have hh0 : (0 : ℚ) < (src.height : ℚ) := by exact_mod_cast Nat.lt_of_lt_of_le Nat.zero_lt_one hh
  have hmin0 : 0 ≤ min ((cellW : ℚ) / (src.width : ℚ)) ((cellH : ℚ) / (src.height : ℚ)) :=
    le_min (by positivity) (by positivity)
  constructor
  · rw [resize_with_aspect_width]
    have h1 : (src.width : ℚ) *
        min ((cellW : ℚ) / (src.width : ℚ)) ((cellH : ℚ) / (src.height : ℚ)) ≤ (cellW : ℚ) := by
      calc (src.width : ℚ) * min ((cellW : ℚ) / (src.width : ℚ)) ((cellH : ℚ) / (src.height : ℚ))
          ≤ (src.width : ℚ) * ((cellW : ℚ) / (src.width : ℚ)) :=
            mul_le_mul_of_nonneg_left (min_le_left _ _) (le_of_lt hw0)
        _ = (cellW : ℚ) := by field_simp
    have h2 := Int.floor_le_floor h1
    rw [Int.floor_natCast] at h2
    have h3 := Int.toNat_le_toNat h2
    rw [Int.toNat_natCast] at h3
    exact Nat.max_le.mpr ⟨hcw, h3⟩
  · rw [resize_with_aspect_height]
    have h1 : (src.height : ℚ) *
        min ((cellW : ℚ) / (src.width : ℚ)) ((cellH : ℚ) / (src.height : ℚ)) ≤ (cellH : ℚ) := by
      calc (src.height : ℚ) * min ((cellW : ℚ) / (src.width : ℚ)) ((cellH : ℚ) / (src.height : ℚ))
          ≤ (src.height : ℚ) * ((cellH : ℚ) / (src.height : ℚ)) :=
            mul_le_mul_of_nonneg_left (min_le_right _ _) (le_of_lt hh0)
        _ = (cellH : ℚ) := by field_simp
    have h2 := Int.floor_le_floor h1
    rw [Int.floor_natCast] at h2
    have h3 := Int.toNat_le_toNat h2
    rw [Int.toNat_natCast] at h3
    exact Nat.max_le.mpr ⟨hch, h3⟩

theorem pasteImg_mode (dest src : Img) (ox oy : Nat) :
    (pasteImg dest src ox oy).mode = dest.mode := rfl

theorem pasteImg_width (dest src : Img) (ox oy : Nat) :
    (pasteImg dest src ox oy).width = dest.width := rfl

theorem pasteImg_height (dest src : Img) (ox oy : Nat) :
    (pasteImg dest src ox oy).height = dest.height := rfl

theorem pasteImg_px_in (dest src : Img) (ox oy dx dy : Nat)
    (h1 : dx < src.width) (h2 : dy < src.height) (hm : dest.mode = "RGB") :
    (pasteImg dest src ox oy).px (ox + dx) (oy + dy) =
      ⟨(src.px dx dy).r, (src.px dx dy).g, (src.px dx dy).b, 255⟩ := by
  simp only [pasteImg]
  rw [if_pos ⟨Nat.le_add_right ox dx, by omega, Nat.le_add_right oy dy, by omega⟩]
  rw [if_pos hm, Nat.add_sub_cancel_left, Nat.add_sub_cancel_left]

theorem pasteImg_px_out (dest src : Img) (ox oy x y : Nat)
    (h : ¬(ox ≤ x ∧ x < ox + src.width ∧ oy ≤ y ∧ y < oy + src.height)) :
    (pasteImg dest src ox oy).px x y = dest.px x y := by
  simp only [pasteImg]
  rw [if_neg h]

theorem nat_div_eq_of_between {a q k : Nat} (hk : 0 < k) (h1 : q * k ≤ a)
    (h2 : a < q * k + k) : a / k = q := by
  have hle : q ≤ a / k := (Nat.le_div_iff_mul_le hk).mpr h1
  have hlt : a / k < q + 1 := by
    rw [Nat.div_lt_iff_lt_mul hk]
    have h3 : (q + 1) * k = q * k + k := by ring
    omega
  omega

theorem buildAtlasGo_dims (cols rows cellW cellH : Nat) :
    ∀ (l : List Img) (atlas : Img) (i : Nat),
      (buildAtlasGo cols rows cellW cellH atlas l i).mode = atlas.mode ∧
      (buildAtlasGo cols rows cellW cellH atlas l i).width = atlas.width ∧
      (buildAtlasGo cols rows cellW cellH atlas l i).height = atlas.height := by
  intro l
  induction l with
  | nil => intro atlas i; exact ⟨rfl, rfl, rfl⟩
  | cons t rest ih =>
    intro atlas i
    simp only [buildAtlasGo]
    by_cases h : rows ≤ i / cols
    · rw [if_pos h]; exact ⟨rfl, rfl, rfl⟩
    · rw [if_neg h]
      exact ih _ (i + 1)

theorem buildAtlasGo_take (cols rows cellW cellH : Nat) (hc : 1 ≤ cols) :
    ∀ (l : List Img) (atlas : Img) (i : Nat),
      buildAtlasGo cols rows cellW cellH atlas l i =
        buildAtlasGo cols rows cellW cellH atlas (l.take (cols * rows - i)) i := by
  intro l
  induction l with
  | nil => intro atlas i; rw [List.take_nil]
  | cons t rest ih =>
    intro atlas i
    have hcomm : rows * cols = cols * rows := Nat.mul_comm rows cols
    by_cases h : rows ≤ i / cols
    · have h2 : rows * cols ≤ i := (Nat.le_div_iff_mul_le (by omega : 0 < cols)).mp h
      rw [show cols * rows - i = 0 from by omega, List.take_zero]
      simp only [buildAtlasGo, if_pos h]
    · have h3 : i / cols < rows := lt_of_not_ge h
      have h4 : i < rows * cols := (Nat.div_lt_iff_lt_mul (by omega : 0 < cols)).mp h3
      rw [show cols * rows - i = (cols * rows - (i + 1)) + 1 from by omega,
        List.take_succ_cons]
      simp only [buildAtlasGo, if_neg h]
      exact ih _ (i + 1)

/-- Pixels whose row-major cell index lies at or beyond the pasted window are
left untouched by the atlas paste loop. -/
theorem buildAtlasGo_px_untouched (cols rows cellW cellH : Nat) (hc : 1 ≤ cols)
    (hcw : 1 ≤ cellW) (hch : 1 ≤ cellH) :
    ∀ (l : List Img) (atlas : Img) (i x y : Nat),
      (∀ t ∈ l, t.width = cellW ∧ t.height = cellH) →
      i + l.length ≤ (y / cellH) * cols + x / cellW →
      (buildAtlasGo cols rows cellW cellH atlas l i).px x y = atlas.px x y := by
  intro l
  induction l with
  | nil => intro atlas i x y _ _; rfl
  | cons t rest ih =>
    intro atlas i x y hdim hidx
    simp only [buildAtlasGo]
    by_cases h : rows ≤ i / cols
    · rw [if_pos h]
    · rw [if_neg h]
      rw [List.length_cons] at hidx
      rw [ih _ (i + 1) x y (fun u hu => hdim u (List.mem_cons.mpr (Or.inr hu))) (by omega)]
      apply pasteImg_px_out
      rintro ⟨hx1, hx2, hy1, hy2⟩
      obtain ⟨htw, hth⟩ := hdim t (List.mem_cons_self t rest)
      rw [htw] at hx2
      rw [hth] at hy2
      have hxd : x / cellW = i % cols :=
        nat_div_eq_of_between (by omega) hx1 hx2
      have hyd : y / cellH = i / cols :=
        nat_div_eq_of_between (by omega) hy1 hy2
      have hdm := Nat.div_add_mod i cols
      have h5 : (i / cols) * cols = cols * (i / cols) := Nat.mul_comm _ _
      rw [hxd, hyd] at hidx
      omega

/-! ## Atlas paging facts -/

theorem pageSlice_length (thumbs : List Img) (perPage maxCells q : Nat)
    (hmc : maxCells ≤ thumbs.length) :
    (pageSlice thumbs perPage maxCells q).length =
      min perPage (maxCells - q * perPage) := by
  rw [pageSlice, List.length_take, List.length_drop]
  omega

theorem lt_ceil_mul {mc per page : Nat} (hper : 0 < per)
    (h : page < (mc + per - 1) / per) : page * per < mc := by
  have h2 : (page + 1) * per ≤ mc + per - 1 := (Nat.le_div_iff_mul_le hper).mp h
  have h3 : (page + 1) * per = page * per + per := by ring
  omega

theorem atlasSlices_eq (thumbs : List Img) (perPage maxCells : Nat) (hper : 1 ≤ perPage)
    (hmc : maxCells ≤ thumbs.length) :
    ∀ (fuel page : Nat),
      page + fuel ≤ (maxCells + perPage - 1) / perPage →
      atlasSlices thumbs perPage maxCells page fuel =
        (List.range' page fuel).map (pageSlice thumbs perPage maxCells) := by
  intro fuel
  induction fuel with
  | zero => intro page _; rfl
  | succ fuel ih =>
    intro page hle
    have hpl : page < (maxCells + perPage - 1) / perPage := by omega
    have hlt : page * perPage < maxCells := lt_ceil_mul (by omega) hpl
    have hlen := pageSlice_length thumbs perPage maxCells page hmc
    have hne : ¬ ((pageSlice thumbs perPage maxCells page).isEmpty = true) := by
      intro he
      have h0 : (pageSlice thumbs perPage maxCells page).length = 0 :=
        List.length_eq_zero.mpr (List.isEmpty_iff.mp he)
      rw [hlen] at h0
      omega
    rw [atlasSlices, if_neg hne]
    rw [show List.range' page (fuel + 1) = page :: List.range' (page + 1) fuel from rfl,
      List.map_cons]
    congr 1
    exact ih (page + 1) (by omega)

theorem atlasPagesOf_eq (thumbs : List Img) (cols rows : Nat)
    (hc : 1 ≤ cols) (hr : 1 ≤ rows) :
    atlasPagesOf thumbs cols rows =
      (List.range' 0
          (min MAX_ATLAS_PAGES
            ((min thumbs.length MAX_ITEMS + cols * rows - 1) / (cols * rows)))).map
        (pageSlice thumbs (cols * rows) (min thumbs.length MAX_ITEMS)) := by
  have hper : 1 ≤ cols * rows := Nat.one_le_iff_ne_zero.mpr (by positivity)
  exact atlasSlices_eq thumbs (cols * rows) (min thumbs.length MAX_ITEMS) hper
    (Nat.min_le_left _ _) _ 0 (by omega)

theorem atlasPagesOf_length (thumbs : List Img) (cols rows : Nat)
    (hc : 1 ≤ cols) (hr : 1 ≤ rows) :
    (atlasPagesOf thumbs cols rows).length =
      min MAX_ATLAS_PAGES
        ((min thumbs.length MAX_ITEMS + cols * rows - 1) / (cols * rows)) := by
  rw [atlasPagesOf_eq thumbs cols rows hc hr, List.length_map, List.length_range']

/-! ## The per-target loop -/

theorem processLoop_spec (fullPc : FS Img) (cellW cellH mobileMax : Nat) :
    ∀ (names : List Name) (mob : FS Img) (cells : List Img),
      (∀ n ∈ names, n ∈ keys fullPc) →
      (names.map lowerName).Nodup →
      ∃ mob2 cells2,
        processLoop fullPc cellW cellH mobileMax names mob cells = .ok (mob2, cells2) ∧
        (∀ m, m ∈ keys mob2 ↔
          (m ∈ keys mob ∧ ∀ n ∈ names, lowerName m ≠ lowerName n) ∨ m ∈ names) ∧
        cells2.length = cells.length + names.length := by
  intro names
  induction names with
  | nil =>
    intro mob cells _ _
    exact ⟨mob, cells, rfl, fun m => by simp, by simp⟩
  | cons n rest ih =>
    intro mob cells hsub hnd
    have hn : n ∈ keys fullPc := hsub n (List.mem_cons_self n rest)
    obtain ⟨v, hv⟩ := exists_lookup_of_mem hn
    rw [List.map_cons, List.nodup_cons] at hnd
    obtain ⟨mob2, cells2, hrun, hmem, hlen⟩ :=
      ih (writeFS mob n (mobileResize (normalizeMode v) mobileMax))
        (cells ++ [make_letterboxed_thumb (normalizeMode v) cellW cellH 0 0 0])
        (fun u hu => hsub u (List.mem_cons.mpr (Or.inr hu))) hnd.2
    refine ⟨mob2, cells2, ?_, ?_, ?_⟩
    · simp only [processLoop, hv]
      exact hrun
    · intro m
      rw [hmem m, mem_keys_writeFS]
      constructor
      · rintro (⟨⟨h1, h2⟩ | h1, h3⟩ | h)
        · refine Or.inl ⟨h1, ?_⟩
          intro u hu
          rcases List.mem_cons.mp hu with rfl | hu2
          · exact h2
          · exact h3 u hu2
        · exact Or.inr (List.mem_cons.mpr (Or.inl h1))
        · exact Or.inr (List.mem_cons.mpr (Or.inr h))
      · rintro (⟨h1, h2⟩ | h)
        · refine Or.inl ⟨Or.inl ⟨h1, h2 n (List.mem_cons_self n rest)⟩, ?_⟩
          intro u hu
          exact h2 u (List.mem_cons.mpr (Or.inr hu))
        · rcases List.mem_cons.mp h with rfl | h4
          · refine Or.inl ⟨Or.inr rfl, ?_⟩
            intro u hu he
            apply hnd.1
            rw [he]
            exact List.mem_map.mpr ⟨u, hu, rfl⟩
          · exact Or.inr h4
    · rw [hlen]
      simp only [List.length_append, List.length_cons, List.length_nil]
      omega

/-! ## Claim C1: two-phase rename -/

/-- A source set where one original is already named like a phase-1 temporary
name: `__tmp_renaming_000001.png` is itself a `*.png` file, is globbed, and in
phase 1 the rename of `000.png` onto that very name hits an existing file. -/
def fsClash1 : FS Nat := [("000.png".data, 0), ("__tmp_renaming_000001.png".data, 1)]

/-- C1 (counterexample): the claim fails as stated.  On `fsClash1` the phase-1
temporary name collides with an existing source file, `Path.rename` raises
`FileExistsError`, and no bijection onto the sequential names is produced. -/
theorem c1_counterexample :
    renameFullPcSequential fsClash1 3 = .error "FileExistsError" := rfl

/-- C1 (amended): provided the filenames are ASCII (so the modeled case
folding agrees with Python's and the filesystem's), no source filename
carries the reserved `__tmp_renaming_` marker in any letter case, and the
filenames are unique case-insensitively, the two-phase rename is
collision-free: the run succeeds, returns exactly the sequential names
`001.png .. N.png` for the `N` deduplicated sorted originals (the glob
matching `*.png` case-insensitively), afterwards every path holds exactly one
content, the `.png` part of the directory is exactly the sequential names,
and the contents found at the sequential names are a permutation of the
original images' contents — no original image's content is lost and each is
recoverable at exactly one final path. -/
theorem c1_two_phase_rename_collision_free {α : Type} (fs : FS α)
    (hascii : ∀ p ∈ fs, asciiName p.1 = true)
    (hln : LowerNodup fs)
    (hnt : ∀ p ∈ fs, startsWithName (lowerName p.1) tmpMarker = false) :
    ∃ fs2,
      renameFullPcSequential fs 3 =
        .ok (fs2, seqNames (finalName 3) 1 (listFullPcImages fs).length) ∧
      (keys fs2).Nodup ∧
      (∀ m, m ∈ keys fs2 ↔
        ((m ∈ keys fs ∧ endsWithName (lowerName m) pngSuffix = false) ∨
          m ∈ seqNames (finalName 3) 1 (listFullPcImages fs).length)) ∧
      List.Perm
        ((seqNames (finalName 3) 1 (listFullPcImages fs).length).map (lookupFS fs2))
        ((listFullPcImages fs).map (fun p => some p.2)) :=
  rename_spec fs 3 hascii hln hnt

/-- A well-behaved source set in which one original is already named like a
final target (`005.png`) and another carries an upper-case extension that the
Windows glob still matches. -/
def fsW1 : FS Nat := [("005.png".data, 10), ("B.PNG".data, 11), ("a.png".data, 12)]

theorem c1_witness :
    ((∀ p ∈ fsW1, asciiName p.1 = true) ∧ LowerNodup fsW1 ∧
      ∀ p ∈ fsW1, startsWithName (lowerName p.1) tmpMarker = false) ∧
    ∃ fs2,
      renameFullPcSequential fsW1 3 =
        .ok (fs2, seqNames (finalName 3) 1 (listFullPcImages fsW1).length) ∧
      (keys fs2).Nodup ∧
      (∀ m, m ∈ keys fs2 ↔
        ((m ∈ keys fsW1 ∧ endsWithName (lowerName m) pngSuffix = false) ∨
          m ∈ seqNames (finalName 3) 1 (listFullPcImages fsW1).length)) ∧
      List.Perm
        ((seqNames (finalName 3) 1 (listFullPcImages fsW1).length).map (lookupFS fs2))
        ((listFullPcImages fsW1).map (fun p => some p.2)) :=
  ⟨⟨by decide, by decide, by decide⟩,
    c1_two_phase_rename_collision_free fsW1 (by decide) (by decide) (by decide)⟩

/-! ## Claim C2: sequential naming invariant -/

/-- Another source set whose name collides with the temporary scheme. -/
def fsClash2 : FS Nat := [("111.png".data, 5), ("__tmp_renaming_000001.png".data, 7)]

/-- C2 (counterexample): the claim fails as stated: on this non-empty input
set the run aborts with `FileExistsError`, so the resulting filenames are not
the sequential stems `1..N`. -/
theorem c2_counterexample :
    renameFullPcSequential fsClash2 3 = .error "FileExistsError" := rfl

/-- C2 (amended): for every non-empty input set of ASCII filenames that avoid
the reserved `__tmp_renaming_` marker in any letter case and are unique
case-insensitively, the Sequencer returns exactly the names `f"{k:03d}.png"`
for `k = 1..N` in increasing order of `k`, with no gaps and no duplicates. -/
theorem c2_sequencer_covers_indices {α : Type} (fs : FS α)
    (hascii : ∀ p ∈ fs, asciiName p.1 = true)
    (hln : LowerNodup fs)
    (hnt : ∀ p ∈ fs, startsWithName (lowerName p.1) tmpMarker = false)
    (hne : listFullPcImages fs ≠ []) :
    ∃ fs2,
      renameFullPcSequential fs 3 =
        .ok (fs2, seqNames (finalName 3) 1 (listFullPcImages fs).length) ∧
      (seqNames (finalName 3) 1 (listFullPcImages fs).length).Nodup ∧
      (∀ m, m ∈ seqNames (finalName 3) 1 (listFullPcImages fs).length ↔
        ∃ k, 1 ≤ k ∧ k ≤ (listFullPcImages fs).length ∧ m = finalName 3 k) := by
  obtain ⟨fs2, h1, _⟩ := rename_spec fs 3 hascii hln hnt
  refine ⟨fs2, h1, seqNames_nodup_of_inj (fun h => finalName_inj h) _ 1, ?_⟩
  intro m
  rw [mem_seqNames]
  constructor
  · rintro ⟨k, hk, he⟩
    exact ⟨1 + k, by omega, by omega, he⟩
  · rintro ⟨k, h1k, h2k, he⟩
    exact ⟨k - 1, by omega, by rw [show 1 + (k - 1) = k from by omega]; exact he⟩

/-- A plain three-image source set. -/
def fsW2 : FS Nat := [("photo2.png".data, 2), ("photo1.png".data, 1), ("photo3.png".data, 3)]

theorem c2_witness :
    ((∀ p ∈ fsW2, asciiName p.1 = true) ∧ LowerNodup fsW2 ∧
      (∀ p ∈ fsW2, startsWithName (lowerName p.1) tmpMarker = false) ∧
      listFullPcImages fsW2 ≠ []) ∧
    ∃ fs2,
      renameFullPcSequential fsW2 3 =
        .ok (fs2, seqNames (finalName 3) 1 (listFullPcImages fsW2).length) ∧
      (seqNames (finalName 3) 1 (listFullPcImages fsW2).length).Nodup ∧
      (∀ m, m ∈ seqNames (finalName 3) 1 (listFullPcImages fsW2).length ↔
        ∃ k, 1 ≤ k ∧ k ≤ (listFullPcImages fsW2).length ∧ m = finalName 3 k) :=
  ⟨⟨by decide, by decide, by decide, by decide⟩,
    c2_sequencer_covers_indices fsW2 (by decide) (by decide) (by decide) (by decide)⟩

/-! ## Claim C3: placeholder padder -/

/-- C3: `pad_with_placeholders` writes a solid opaque gray 2048×1152
placeholder at every index in `(N, T]` — overwriting any pre-existing file at
those paths — leaves every other path (in particular indices `1..N`)
untouched (on the case-insensitive filesystem, "other" means any path that is
not a case variant of a padded name), and writes nothing when `N ≥ T` (so
`N = 0` is filled entirely by padding). -/
theorem c3_pad_with_placeholders_spec (fs : FS Img) (currentCount target : Nat) :
    (∀ i, currentCount + 1 ≤ i → i ≤ target →
      lookupFS (pad_with_placeholders fs currentCount target 3) (finalName 3 i) =
        some placeholderImg) ∧
    (∀ m, (∀ i, currentCount + 1 ≤ i → i ≤ target → lowerName m ≠ finalName 3 i) →
      lookupFS (pad_with_placeholders fs currentCount target 3) m = lookupFS fs m) ∧
    (∀ j, 1 ≤ j → j ≤ currentCount →
      lookupFS (pad_with_placeholders fs currentCount target 3) (finalName 3 j) =
        lookupFS fs (finalName 3 j)) ∧
    (target ≤ currentCount → pad_with_placeholders fs currentCount target 3 = fs) ∧
    placeholderImg.mode = "RGB" ∧ placeholderImg.width = 2048 ∧
    placeholderImg.height = 1152 ∧
    (∀ x y, placeholderImg.px x y = ⟨128, 128, 128, 255⟩) := by
  refine ⟨?_, ?_, ?_, ?_, rfl, rfl, rfl, fun x y => rfl⟩
  · intro i h1 h2
    exact pad_lookup_in fs currentCount target 3 i h1 h2
  · intro m hm
    exact pad_lookup_out fs currentCount target 3 m hm
  · intro j h1 h2
    apply pad_lookup_out
    intro i hi1 hi2 he
    rw [lowerName_finalName] at he
    have := finalName_inj he
    omega
  · intro h
    exact pad_noop fs currentCount target 3 h

theorem c3_witness :
    lookupFS (pad_with_placeholders [] 0 2 3) (finalName 3 1) = some placeholderImg ∧
    lookupFS (pad_with_placeholders [] 0 2 3) (finalName 3 2) = some placeholderImg ∧
    pad_with_placeholders [] 2 2 3 = ([] : FS Img) :=
  ⟨(c3_pad_with_placeholders_spec [] 0 2).1 1 (by decide) (by decide),
   (c3_pad_with_placeholders_spec [] 0 2).1 2 (by decide) (by decide),
   (c3_pad_with_placeholders_spec [] 2 2).2.2.2.1 (by decide)⟩

/-! ## Claim C6: resize dimension formula -/

/-- The resize dimension formula with truncation toward zero (the amended
claim, written independently from the spec's wording with "rounded to the
nearest integer" corrected to "truncated"). -/
def specResizeDims (w h maxW maxH : Nat) : Nat × Nat :=
  (max 1 (Int.toNat ⌊(w : ℚ) * min ((maxW : ℚ) / (w : ℚ)) ((maxH : ℚ) / (h : ℚ))⌋),
   max 1 (Int.toNat ⌊(h : ℚ) * min ((maxW : ℚ) / (w : ℚ)) ((maxH : ℚ) / (h : ℚ))⌋))

/-- The resize dimension formula exactly as the claim words it: each scaled
dimension rounded to the nearest integer and not less than 1. -/
def specResizeDimsNearest (w h maxW maxH : Nat) : Nat × Nat :=
  (max 1 (Int.toNat (round ((w : ℚ) * min ((maxW : ℚ) / (w : ℚ)) ((maxH : ℚ) / (h : ℚ))))),
   max 1 (Int.toNat (round ((h : ℚ) * min ((maxW : ℚ) / (w : ℚ)) ((maxH : ℚ) / (h : ℚ))))))

/-- An 11×8 source resized into an 11×7 box: the exact scaled width is
11·(7/8) = 9.625. -/
def img11x8 : Img := ⟨"RGB", 11, 8, fun _ _ => ⟨0, 0, 0, 255⟩⟩

/-- C6 (counterexample): `int()` truncates, it does not round to nearest: the
code produces width 9 where the claim's nearest-integer formula says 10. -/
theorem c6_counterexample :
    ((resize_with_aspect img11x8 11 7).width, (resize_with_aspect img11x8 11 7).height) =
      (9, 7) ∧
    specResizeDimsNearest 11 8 11 7 = (10, 7) := by
  constructor
  · rw [Prod.mk.injEq]
    constructor
    · rw [resize_with_aspect_width]
      norm_num [img11x8, min_def]
      decide
    · rw [resize_with_aspect_height]
      norm_num [img11x8, min_def]
      decide
  · rw [specResizeDimsNearest, Prod.mk.injEq]
    constructor
    · norm_num [min_def, round_eq]
      decide
    · norm_num [min_def, round_eq]
      decide

/-- C6 (amended): `resize_with_aspect` returns an image whose dimensions are
the scaled dimensions truncated toward zero and clamped below at 1, with the
uniform scale `min(maxW/w, maxH/h)`. -/
theorem c6_resize_dims_floor (im : Img) (maxW maxH : Nat)
    (hw : 1 ≤ im.width) (hh : 1 ≤ im.height) :
    ((resize_with_aspect im maxW maxH).width, (resize_with_aspect im maxW maxH).height) =
      specResizeDims im.width im.height maxW maxH := rfl

def img6x4 : Img := ⟨"RGB", 6, 4, fun _ _ => ⟨1, 2, 3, 255⟩⟩

theorem c6_witness :
    (1 ≤ img6x4.width ∧ 1 ≤ img6x4.height) ∧
    ((resize_with_aspect img6x4 3 2).width, (resize_with_aspect img6x4 3 2).height) =
      specResizeDims img6x4.width img6x4.height 3 2 :=
  ⟨⟨by decide, by decide⟩, c6_resize_dims_floor img6x4 3 2 (by decide) (by decide)⟩

/-! ## Claim C7: aspect preserved within one pixel -/

theorem max_one_toNat_floor_close (x : ℚ) (hx : 0 ≤ x) :
    |((max 1 (Int.toNat ⌊x⌋) : Nat) : ℚ) - x| ≤ 1 := by
  by_cases h : ⌊x⌋ ≤ 0
  · have htn : Int.toNat ⌊x⌋ = 0 := Int.toNat_of_nonpos h
    have hx1 : x < 1 := by
      have h2 := Int.lt_floor_add_one x
      have h3 : ((⌊x⌋ : ℚ)) ≤ 0 := by exact_mod_cast h
      linarith
    rw [htn]
    norm_num
    rw [abs_le]
    constructor <;> linarith
  · push_neg at h
    have h1 : (1 : Nat) ≤ Int.toNat ⌊x⌋ := by omega
    rw [Nat.max_eq_right h1, abs_le]
    have h2 := Int.floor_le x
    have h3 := Int.lt_floor_add_one x
    have h4 : ((Int.toNat ⌊x⌋ : Nat) : ℚ) = ((⌊x⌋ : ℤ) : ℚ) := by
      exact_mod_cast Int.toNat_of_nonneg (by omega)
    rw [h4]
    constructor <;> linarith

/-- C7: each output dimension of `resize_with_aspect` is within one pixel of
the exact scaled value `w·scale` (resp. `h·scale`), so the aspect ratio is
preserved up to ±1 pixel of truncation. -/
theorem c7_aspect_within_one_pixel (im : Img) (maxW maxH : Nat)
    (hw : 1 ≤ im.width) (hh : 1 ≤ im.height) :
    |((resize_with_aspect im maxW maxH).width : ℚ) -
        (im.width : ℚ) * min ((maxW : ℚ) / (im.width : ℚ)) ((maxH : ℚ) / (im.height : ℚ))| ≤ 1 ∧
    |((resize_with_aspect im maxW maxH).height : ℚ) -
        (im.height : ℚ) * min ((maxW : ℚ) / (im.width : ℚ)) ((maxH : ℚ) / (im.height : ℚ))| ≤ 1 := by
  have hmin0 : 0 ≤ min ((maxW : ℚ) / (im.width : ℚ)) ((maxH : ℚ) / (im.height : ℚ)) :=
    le_min (by positivity) (by positivity)
  constructor
  · rw [resize_with_aspect_width]
    exact max_one_toNat_floor_close _ (mul_nonneg (by positivity) hmin0)
  · rw [resize_with_aspect_height]
    exact max_one_toNat_floor_close _ (mul_nonneg (by positivity) hmin0)

def img5x3 : Img := ⟨"RGB", 5, 3, fun _ _ => ⟨9, 9, 9, 255⟩⟩

theorem c7_witness :
    (1 ≤ img5x3.width ∧ 1 ≤ img5x3.height) ∧
    (|((resize_with_aspect img5x3 4 4).width : ℚ) -
        (img5x3.width : ℚ) *
          min ((4 : ℚ) / (img5x3.width : ℚ)) ((4 : ℚ) / (img5x3.height : ℚ))| ≤ 1 ∧
      |((resize_with_aspect img5x3 4 4).height : ℚ) -
        (img5x3.height : ℚ) *
          min ((4 : ℚ) / (img5x3.width : ℚ)) ((4 : ℚ) / (img5x3.height : ℚ))| ≤ 1) :=
  ⟨⟨by decide, by decide⟩, c7_aspect_within_one_pixel img5x3 4 4 (by decide) (by decide)⟩

/-! ## Claim C8: letterbox compositing -/

/-- C8 (amended): the letterbox compositor pastes the fitted image at offset
`((cellW - fitW) // 2, (cellH - fitH) // 2)` using integer floor division, the
result is always an opaque RGB canvas of exactly `(cellW, cellH)` (the fitted
image never exceeds the cell), the area outside the pasted rectangle is the
opaque background color, and for an alpha-carrying source the alpha channel is
simply ignored — the RGB channels are pasted as-is, not composited over the
background. -/
theorem c8_letterbox_paste (src : Img) (cellW cellH bgR bgG bgB : Nat)
    (hcw : 1 ≤ cellW) (hch : 1 ≤ cellH) (hw : 1 ≤ src.width) (hh : 1 ≤ src.height) :
    (make_letterboxed_thumb src cellW cellH bgR bgG bgB).mode = "RGB" ∧
    (make_letterboxed_thumb src cellW cellH bgR bgG bgB).width = cellW ∧
    (make_letterboxed_thumb src cellW cellH bgR bgG bgB).height = cellH ∧
    (resize_with_aspect src cellW cellH).width ≤ cellW ∧
    (resize_with_aspect src cellW cellH).height ≤ cellH ∧
    (∀ dx dy, dx < (resize_with_aspect src cellW cellH).width →
      dy < (resize_with_aspect src cellW cellH).height →
      (make_letterboxed_thumb src cellW cellH bgR bgG bgB).px
          ((cellW - (resize_with_aspect src cellW cellH).width) / 2 + dx)
          ((cellH - (resize_with_aspect src cellW cellH).height) / 2 + dy) =
        ⟨((resize_with_aspect src cellW cellH).px dx dy).r,
          ((resize_with_aspect src cellW cellH).px dx dy).g,
          ((resize_with_aspect src cellW cellH).px dx dy).b, 255⟩) ∧
    (∀ x y,
      ¬((cellW - (resize_with_aspect src cellW cellH).width) / 2 ≤ x ∧
        x < (cellW - (resize_with_aspect src cellW cellH).width) / 2 +
          (resize_with_aspect src cellW cellH).width ∧
        (cellH - (resize_with_aspect src cellW cellH).height) / 2 ≤ y ∧
        y < (cellH - (resize_with_aspect src cellW cellH).height) / 2 +
          (resize_with_aspect src cellW cellH).height) →
      (make_letterboxed_thumb src cellW cellH bgR bgG bgB).px x y =
        ⟨bgR, bgG, bgB, 255⟩) := by
  obtain ⟨hfw, hfh⟩ := resize_fit_le src cellW cellH hcw hch hw hh
  refine ⟨rfl, rfl, rfl, hfw, hfh, ?_, ?_⟩
  · intro dx dy h1 h2
    exact pasteImg_px_in _ _ _ _ dx dy h1 h2 rfl
  · intro x y h
    rw [make_letterboxed_thumb, pasteImg_px_out _ _ _ _ x y h]
    rfl

/-- A fully transparent red 2×2 RGBA source. -/
def transparentRed : Img := ⟨"RGBA", 2, 2, fun _ _ => ⟨255, 0, 0, 0⟩⟩

/-- C8 (counterexample): pasting a fully transparent red source into a 2×2
cell over a black background yields an opaque red pixel — the mask-less PIL
paste drops the alpha channel — whereas compositing the transparency over the
background, as the claim states, would yield black. -/
theorem c8_counterexample :
    (make_letterboxed_thumb transparentRed 2 2 0 0 0).px 0 0 = ⟨255, 0, 0, 255⟩ ∧
    (make_letterboxed_thumb transparentRed 2 2 0 0 0).px 0 0 ≠ ⟨0, 0, 0, 255⟩ := by
  have hfit : resize_with_aspect transparentRed 2 2 = transparentRed :=
    resize_with_aspect_self transparentRed (by decide) (by decide)
  constructor
  · rw [make_letterboxed_thumb, hfit]
    rfl
  · rw [make_letterboxed_thumb, hfit]
    decide

/-- A half-transparent 2×3 RGBA source for the C8 witness. -/
def imgSrc8 : Img := ⟨"RGBA", 2, 3, fun _ _ => ⟨10, 20, 30, 128⟩⟩

theorem c8_witness :
    ((1 : Nat) ≤ 4 ∧ (1 : Nat) ≤ 4 ∧ 1 ≤ imgSrc8.width ∧ 1 ≤ imgSrc8.height) ∧
    ((make_letterboxed_thumb imgSrc8 4 4 1 2 3).mode = "RGB" ∧
      (make_letterboxed_thumb imgSrc8 4 4 1 2 3).width = 4 ∧
      (make_letterboxed_thumb imgSrc8 4 4 1 2 3).height = 4 ∧
      (resize_with_aspect imgSrc8 4 4).width ≤ 4 ∧
      (resize_with_aspect imgSrc8 4 4).height ≤ 4 ∧
      (∀ dx dy, dx < (resize_with_aspect imgSrc8 4 4).width →
        dy < (resize_with_aspect imgSrc8 4 4).height →
        (make_letterboxed_thumb imgSrc8 4 4 1 2 3).px
            ((4 - (resize_with_aspect imgSrc8 4 4).width) / 2 + dx)
            ((4 - (resize_with_aspect imgSrc8 4 4).height) / 2 + dy) =
          ⟨((resize_with_aspect imgSrc8 4 4).px dx dy).r,
            ((resize_with_aspect imgSrc8 4 4).px dx dy).g,
            ((resize_with_aspect imgSrc8 4 4).px dx dy).b, 255⟩) ∧
      (∀ x y,
        ¬((4 - (resize_with_aspect imgSrc8 4 4).width) / 2 ≤ x ∧
          x < (4 - (resize_with_aspect imgSrc8 4 4).width) / 2 +
            (resize_with_aspect imgSrc8 4 4).width ∧
          (4 - (resize_with_aspect imgSrc8 4 4).height) / 2 ≤ y ∧
          y < (4 - (resize_with_aspect imgSrc8 4 4).height) / 2 +
            (resize_with_aspect imgSrc8 4 4).height) →
        (make_letterboxed_thumb imgSrc8 4 4 1 2 3).px x y = ⟨1, 2, 3, 255⟩)) :=
  ⟨⟨by decide, by decide, by decide, by decide⟩,
    c8_letterbox_paste imgSrc8 4 4 1 2 3 (by decide) (by decide) (by decide) (by decide)⟩

/-! ## Claim C9: letterbox idempotence on correctly sized input -/

/-- C9: on an opaque RGB source already of size `(cellW, cellH)` the
compositor returns the image unchanged: same mode, same dimensions, offset
`(0, 0)`, every pixel identical — zero added border. -/
theorem c9_letterbox_idempotent (src : Img) (cellW cellH : Nat)
    (hm : src.mode = "RGB") (hw : src.width = cellW) (hh : src.height = cellH)
    (hcw : 1 ≤ cellW) (hch : 1 ≤ cellH)
    (hop : ∀ x y, (src.px x y).a = 255) :
    (make_letterboxed_thumb src cellW cellH 0 0 0).mode = "RGB" ∧
    (make_letterboxed_thumb src cellW cellH 0 0 0).width = cellW ∧
    (make_letterboxed_thumb src cellW cellH 0 0 0).height = cellH ∧
    (cellW - (resize_with_aspect src cellW cellH).width) / 2 = 0 ∧
    (cellH - (resize_with_aspect src cellW cellH).height) / 2 = 0 ∧
    (∀ x y, x < cellW → y < cellH →
      (make_letterboxed_thumb src cellW cellH 0 0 0).px x y = src.px x y) := by
  subst hw
  subst hh
  have hfit : resize_with_aspect src src.width src.height = src :=
    resize_with_aspect_self src hcw hch
  refine ⟨rfl, rfl, rfl, ?_, ?_, ?_⟩
  · rw [hfit]
    omega
  · rw [hfit]
    omega
  · intro x y hx hy
    rw [make_letterboxed_thumb, hfit]
    simp only [Nat.sub_self, Nat.zero_div]
    have h1 := pasteImg_px_in (imageNewRGB src.width src.height 0 0 0) src 0 0 x y hx hy rfl
    rw [Nat.zero_add, Nat.zero_add] at h1
    rw [h1]
    have ha := hop x y
    cases hq : src.px x y with
    | mk r g b a =>
      rw [hq] at ha
      simp only at ha
      simp [ha]

/-- An opaque RGB image already of cell size 3×2. -/
def imgCell : Img := ⟨"RGB", 3, 2, fun x y => ⟨x, y, 7, 255⟩⟩

theorem c9_witness :
    (imgCell.mode = "RGB" ∧ imgCell.width = 3 ∧ imgCell.height = 2 ∧
      (∀ x y, (imgCell.px x y).a = 255)) ∧
    ((make_letterboxed_thumb imgCell 3 2 0 0 0).mode = "RGB" ∧
      (make_letterboxed_thumb imgCell 3 2 0 0 0).width = 3 ∧
      (make_letterboxed_thumb imgCell 3 2 0 0 0).height = 2 ∧
      (3 - (resize_with_aspect imgCell 3 2).width) / 2 = 0 ∧
      (2 - (resize_with_aspect imgCell 3 2).height) / 2 = 0 ∧
      (∀ x y, x < 3 → y < 2 →
        (make_letterboxed_thumb imgCell 3 2 0 0 0).px x y = imgCell.px x y)) :=
  ⟨⟨rfl, rfl, rfl, fun x y => rfl⟩,
    c9_letterbox_idempotent imgCell 3 2 rfl rfl rfl (by decide) (by decide)
      (fun x y => rfl)⟩

/-! ## Claim C10: build_atlas totality -/

/-- C10: `build_atlas` always returns an opaque RGB canvas of exactly
`(cols·cellW, rows·cellH)` pixels, and its result depends only on the first
`cols·rows` cells — a cell whose row-major index reaches `cols·rows` is
silently ignored. -/
theorem c10_build_atlas_total (thumbs : List Img) (cols rows cellW cellH : Nat)
    (hc : 1 ≤ cols) (hr : 1 ≤ rows) :
    (build_atlas thumbs cols rows cellW cellH).width = cols * cellW ∧
    (build_atlas thumbs cols rows cellW cellH).height = rows * cellH ∧
    (build_atlas thumbs cols rows cellW cellH).mode = "RGB" ∧
    build_atlas thumbs cols rows cellW cellH =
      build_atlas (thumbs.take (cols * rows)) cols rows cellW cellH := by
  obtain ⟨h1, h2, h3⟩ := buildAtlasGo_dims cols rows cellW cellH thumbs
    (imageNewRGB (cols * cellW) (rows * cellH) 0 0 0) 0
  refine ⟨?_, ?_, ?_, ?_⟩
  · rw [build_atlas, h2]; rfl
  · rw [build_atlas, h3]; rfl
  · rw [build_atlas, h1]; rfl
  · rw [build_atlas, build_atlas]
    have h4 := buildAtlasGo_take cols rows cellW cellH hc thumbs
      (imageNewRGB (cols * cellW) (rows * cellH) 0 0 0) 0
    rw [Nat.sub_zero] at h4
    exact h4

/-- A 4×3 thumbnail cell. -/
def cellA : Img := ⟨"RGB", 4, 3, fun _ _ => ⟨5, 5, 5, 255⟩⟩

theorem c10_witness :
    ((1 : Nat) ≤ 2 ∧ (1 : Nat) ≤ 2) ∧
    ((build_atlas (List.replicate 9 cellA) 2 2 4 3).width = 2 * 4 ∧
      (build_atlas (List.replicate 9 cellA) 2 2 4 3).height = 2 * 3 ∧
      (build_atlas (List.replicate 9 cellA) 2 2 4 3).mode = "RGB" ∧
      build_atlas (List.replicate 9 cellA) 2 2 4 3 =
        build_atlas ((List.replicate 9 cellA).take (2 * 2)) 2 2 4 3) :=
  ⟨⟨by decide, by decide⟩,
    c10_build_atlas_total (List.replicate 9 cellA) 2 2 4 3 (by decide) (by decide)⟩

/-! ## Claim C5: atlas page count and fill -/

/-- 209 cells sized for an 8×13 grid (capacity 104). -/
def manyCells : List Img := List.replicate 209 (imageNewRGB 2 2 0 0 0)

set_option maxRecDepth 4000 in
/-- C5 (counterexample): with 209 cells and capacity 104 the code renders
`min(13, ceil(min(209, 208)/104)) = 2` pages, not the claimed
`min(13, ceil(209/104)) = 3`: the `min(total, MAX_ITEMS)` clamp is missing
from the claim's formula. -/
theorem c5_counterexample :
    (atlasPagesOf manyCells 8 13).length = 2 ∧
    min MAX_ATLAS_PAGES ((manyCells.length + 8 * 13 - 1) / (8 * 13)) = 3 := by
  constructor
  · rw [atlasPagesOf_length manyCells 8 13 (by decide) (by decide)]
    decide
  · decide

/-- C5 (amended): the atlas stage renders
`min(MAX_ATLAS_PAGES, ceil(min(total, MAX_ITEMS) / capacity))` pages; page `q`
is the slice of `min(capacity, min(total, MAX_ITEMS) - q·capacity)` cells;
every page except possibly the last holds exactly `capacity` cells; and each
page is rendered at the full canvas size with every pixel at or beyond the
page's cell count left in the background color. -/
theorem c5_atlas_pages_spec (thumbs : List Img) (cols rows cellW cellH : Nat)
    (hc : 1 ≤ cols) (hr : 1 ≤ rows) (hcw : 1 ≤ cellW) (hch : 1 ≤ cellH)
    (hdim : ∀ t ∈ thumbs, t.width = cellW ∧ t.height = cellH) :
    atlasPagesOf thumbs cols rows =
      (List.range' 0
          (min MAX_ATLAS_PAGES
            ((min thumbs.length MAX_ITEMS + cols * rows - 1) / (cols * rows)))).map
        (pageSlice thumbs (cols * rows) (min thumbs.length MAX_ITEMS)) ∧
    (atlasPagesOf thumbs cols rows).length =
      min MAX_ATLAS_PAGES
        ((min thumbs.length MAX_ITEMS + cols * rows - 1) / (cols * rows)) ∧
    (∀ q, (pageSlice thumbs (cols * rows) (min thumbs.length MAX_ITEMS) q).length =
      min (cols * rows) (min thumbs.length MAX_ITEMS - q * (cols * rows))) ∧
    (∀ q, q + 1 < (atlasPagesOf thumbs cols rows).length →
      (pageSlice thumbs (cols * rows) (min thumbs.length MAX_ITEMS) q).length =
        cols * rows) ∧
    (∀ q x y,
      (pageSlice thumbs (cols * rows) (min thumbs.length MAX_ITEMS) q).length ≤
        (y / cellH) * cols + x / cellW →
      (build_atlas (pageSlice thumbs (cols * rows) (min thumbs.length MAX_ITEMS) q)
          cols rows cellW cellH).px x y = ⟨0, 0, 0, 255⟩) := by
  have hper : 1 ≤ cols * rows := Nat.mul_pos (by omega) (by omega)
  have hmc : min thumbs.length MAX_ITEMS ≤ thumbs.length := Nat.min_le_left _ _
  have hlen := atlasPagesOf_length thumbs cols rows hc hr
  refine ⟨atlasPagesOf_eq thumbs cols rows hc hr, hlen, ?_, ?_, ?_⟩
  · intro q
    exact pageSlice_length thumbs (cols * rows) (min thumbs.length MAX_ITEMS) q hmc
  · intro q hq
    rw [hlen] at hq
    have hql : q + 1 <
        (min thumbs.length MAX_ITEMS + cols * rows - 1) / (cols * rows) := by omega
    have h2 : (q + 1) * (cols * rows) < min thumbs.length MAX_ITEMS :=
      lt_ceil_mul (by omega) hql
    have h3 : (q + 1) * (cols * rows) = q * (cols * rows) + cols * rows := by ring
    rw [pageSlice_length thumbs (cols * rows) (min thumbs.length MAX_ITEMS) q hmc]
    omega
  · intro q x y hidx
    rw [build_atlas]
    rw [buildAtlasGo_px_untouched cols rows cellW cellH hc hcw hch _ _ 0 x y ?hd ?hi]
    · rfl
    case hd =>
      intro t ht
      refine hdim t ?_
      have h1 : t ∈ thumbs.drop (q * (cols * rows)) := List.take_subset _ _ ht
      exact List.drop_subset _ _ h1
    case hi => omega

/-- Forty 2×2 cells for a 4×4 grid. -/
def cells40 : List Img := List.replicate 40 (imageNewRGB 2 2 9 9 9)

theorem c5_witness :
    ((1 : Nat) ≤ 4 ∧ (1 : Nat) ≤ 4 ∧ (1 : Nat) ≤ 2 ∧ (1 : Nat) ≤ 2 ∧
      (∀ t ∈ cells40, t.width = 2 ∧ t.height = 2) ∧
      min MAX_ATLAS_PAGES ((min cells40.length MAX_ITEMS + 4 * 4 - 1) / (4 * 4)) = 3 ∧
      min (4 * 4) (min cells40.length MAX_ITEMS - 2 * (4 * 4)) = 8) ∧
    (atlasPagesOf cells40 4 4).length =
      min MAX_ATLAS_PAGES ((min cells40.length MAX_ITEMS + 4 * 4 - 1) / (4 * 4)) ∧
    (∀ q, (pageSlice cells40 (4 * 4) (min cells40.length MAX_ITEMS) q).length =
      min (4 * 4) (min cells40.length MAX_ITEMS - q * (4 * 4))) :=
  ⟨⟨by decide, by decide, by decide, by decide, by decide, by decide, by decide⟩,
    ((c5_atlas_pages_spec cells40 4 4 2 2 (by decide) (by decide) (by decide) (by decide)
      (by decide)).2.1),
    ((c5_atlas_pages_spec cells40 4 4 2 2 (by decide) (by decide) (by decide) (by decide)
      (by decide)).2.2.1)⟩

/-! ## Claim C4: oversupply -/

/-- C4 (amended): when the well-named source set holds more than `MAX_ITEMS`
images, the pipeline succeeds, emits the oversupply warning, performs no
padding, processes exactly the targets `001.png .. 208.png` — the mobile
copies are exactly those stems and exactly 208 thumbnail cells are built —
and leaves `full_pc` exactly as the rename left it, with all `N` renamed
files, indices `209..N` included, still on disk. -/
theorem c4_oversupply (fullPc0 : FS Img) (cellW cellH cols rows mobileMax : Nat)
    (hascii : ∀ p ∈ fullPc0, asciiName p.1 = true)
    (hln : LowerNodup fullPc0)
    (hnt : ∀ p ∈ fullPc0, startsWithName (lowerName p.1) tmpMarker = false)
    (hover : MAX_ITEMS < (listFullPcImages fullPc0).length) :
    ∃ res : MainResult,
      mainModel fullPc0 cellW cellH cols rows mobileMax = .ok res ∧
      res.warned = true ∧
      res.padded = false ∧
      (∃ fs1, renameFullPcSequential fullPc0 3 =
          .ok (fs1, seqNames (finalName 3) 1 (listFullPcImages fullPc0).length) ∧
        res.fullPc = fs1) ∧
      (∀ k, 1 ≤ k → k ≤ (listFullPcImages fullPc0).length →
        finalName 3 k ∈ keys res.fullPc) ∧
      (∀ m, m ∈ keys res.fullMobile ↔ m ∈ seqNames (finalName 3) 1 MAX_ITEMS) ∧
      res.thumbsCells.length = MAX_ITEMS := by
  obtain ⟨fs1, hrun, hnd1, hmem1, _⟩ := rename_spec fullPc0 3 hascii hln hnt
  have hfinals : ∀ k, 1 ≤ k → k ≤ (listFullPcImages fullPc0).length →
      finalName 3 k ∈ keys fs1 := by
    intro k h1 h2
    refine (hmem1 _).mpr (Or.inr ?_)
    rw [mem_seqNames]
    exact ⟨k - 1, by omega, by rw [show 1 + (k - 1) = k from by omega]⟩
  have hlenN : (seqNames (finalName 3) 1 (listFullPcImages fullPc0).length).length =
      (listFullPcImages fullPc0).length := seqNames_length _ _ _
  have hsub : ∀ n ∈ seqNames (finalName 3) 1 MAX_ITEMS, n ∈ keys fs1 := by
    intro n hn
    rw [mem_seqNames] at hn
    obtain ⟨k, hk, he⟩ := hn
    rw [he]
    exact hfinals (1 + k) (by omega) (by omega)
  have hndnames : ((seqNames (finalName 3) 1 MAX_ITEMS).map lowerName).Nodup := by
    rw [seqNames_final_map_lower]
    exact seqNames_nodup_of_inj (fun h => finalName_inj h) MAX_ITEMS 1
  obtain ⟨mob2, cells2, hproc, hmob, hcells⟩ :=
    processLoop_spec fs1 cellW cellH mobileMax (seqNames (finalName 3) 1 MAX_ITEMS) [] []
      hsub hndnames
  have hnotlt :
      ¬ ((seqNames (finalName 3) 1 (listFullPcImages fullPc0).length).length < MAX_ITEMS) := by
    rw [hlenN]
    omega
  refine ⟨⟨fs1, mob2,
      (atlasPagesOf cells2 cols rows).enum.map
        (fun q => (atlasName (q.1 + 1), build_atlas q.2 cols rows cellW cellH)),
      cells2,
      decide (MAX_ITEMS <
        (seqNames (finalName 3) 1 (listFullPcImages fullPc0).length).length),
      decide ((seqNames (finalName 3) 1 (listFullPcImages fullPc0).length).length <
        MAX_ITEMS)⟩,
    ?_, ?_, ?_, ⟨fs1, hrun, rfl⟩, hfinals, ?_, ?_⟩
  · simp only [mainModel, hrun, if_neg hnotlt, hproc]
  · show decide _ = true
    exact decide_eq_true (by rw [hlenN]; exact hover)
  · show decide _ = false
    exact decide_eq_false (by rw [hlenN]; omega)
  · intro m
    show m ∈ keys mob2 ↔ _
    rw [hmob m]
    simp [keys_nil]
  · show cells2.length = MAX_ITEMS
    rw [hcells, seqNames_length]
    simp

/-- 210 source files, one of which is named like a phase-1 temporary name. -/
def fsOver : FS Img :=
  ("000.png".data, placeholderImg) :: ("__tmp_renaming_000001.png".data, placeholderImg) ::
    (List.range 208).map (fun k => ('a' :: finalName 3 (k + 1), placeholderImg))

set_option maxRecDepth 40000 in
/-- C4 (counterexample): the claim fails as stated: this source set has
`N = 210 > 208` files, yet the pipeline crashes in the rename stage (a source
file is named like a phase-1 temporary) instead of processing `1..208` with a
warning. -/
theorem c4_counterexample :
    mainModel fsOver 256 144 4 4 1024 = .error "FileExistsError" := rfl

/-- 209 well-named source files `b001.png .. b209.png`. -/
def fsBig : FS Img := (List.range 209).map (fun k => ('b' :: finalName 3 (k + 1), placeholderImg))

theorem startsWith_marker_false_head {c : Char} (rest : Name) (hc : ¬ c = '_') :
    startsWithName (c :: rest) tmpMarker = false := by
  rw [startsWithName, decide_eq_false_iff_not]
  intro h
  have hlen15 : tmpMarker.length = 15 := by decide
  rw [hlen15] at h
  have hc2 : (c :: rest).take 15 = c :: rest.take 14 := rfl
  rw [hc2] at h
  have hm : tmpMarker = '_' :: "_tmp_renaming_".data := by decide
  rw [hm] at h
  injection h with h1 _
  exact hc h1

theorem keys_map_pair (g : Nat → Name) (v : Img) :
    ∀ l : List Nat, keys (l.map (fun k => (g k, v))) = l.map g := by
  intro l
  induction l with
  | nil => rfl
  | cons a rest ih => simp only [List.map_cons, keys_cons, ih]

theorem lowerName_bFinal (k : Nat) :
    lowerName ('b' :: finalName 3 k) = 'b' :: finalName 3 k := by
  rw [lowerName, List.map_cons, show lowerChar 'b' = 'b' from by decide]
  have h3 := lowerName_finalName 3 k
  rw [lowerName] at h3
  rw [h3]

theorem fsBig_lowerNodup : LowerNodup fsBig := by
  show ((keys fsBig).map lowerName).Nodup
  rw [fsBig, keys_map_pair]
  have hfix : ∀ m ∈ (List.range 209).map (fun k => 'b' :: finalName 3 (k + 1)),
      lowerName m = m := by
    intro m hm
    obtain ⟨k, _, he⟩ := List.mem_map.mp hm
    rw [← he]
    exact lowerName_bFinal (k + 1)
  rw [List.map_congr_left hfix, List.map_id' _]
  apply List.Nodup.map ?_ (List.nodup_range 209)
  intro a b hab
  injection hab with _ h2
  have := finalName_inj h2
  omega

theorem fsBig_ascii : ∀ p ∈ fsBig, asciiName p.1 = true := by
  intro p hp
  rw [fsBig] at hp
  obtain ⟨k, _, he⟩ := List.mem_map.mp hp
  rw [← he]
  show asciiName ('b' :: finalName 3 (k + 1)) = true
  apply asciiName_of_lt
  intro c hc
  rcases List.mem_cons.mp hc with rfl | hc2
  · decide
  · exact finalName_chars_ascii 3 (k + 1) c hc2

theorem fsBig_noTmp : ∀ p ∈ fsBig, startsWithName (lowerName p.1) tmpMarker = false := by
  intro p hp
  rw [fsBig] at hp
  obtain ⟨k, _, he⟩ := List.mem_map.mp hp
  rw [← he]
  show startsWithName (lowerName ('b' :: finalName 3 (k + 1))) tmpMarker = false
  rw [lowerName_bFinal]
  exact startsWith_marker_false_head _ (by decide)

theorem fsBig_count : (listFullPcImages fsBig).length = 209 := by
  rw [listFullPcImages_eq_sorted fsBig_lowerNodup,
    (sortByName_perm (globPng fsBig)).length_eq]
  have hglob : globPng fsBig = fsBig := by
    rw [globPng, List.filter_eq_self]
    intro p hp
    rw [fsBig] at hp
    obtain ⟨k, _, he⟩ := List.mem_map.mp hp
    rw [← he]
    show endsWithName (lowerName ('b' :: finalName 3 (k + 1))) pngSuffix = true
    rw [lowerName_bFinal, finalName,
      show ('b' :: (padNum 3 (k + 1) ++ pngSuffix)) =
        (('b' :: padNum 3 (k + 1)) ++ pngSuffix) from rfl]
    exact endsWithName_append _ _
  rw [hglob, fsBig, List.length_map, List.length_range]

theorem c4_witness :
    ((∀ p ∈ fsBig, asciiName p.1 = true) ∧ LowerNodup fsBig ∧
      (∀ p ∈ fsBig, startsWithName (lowerName p.1) tmpMarker = false) ∧
      MAX_ITEMS < (listFullPcImages fsBig).length) ∧
    ∃ res : MainResult,
      mainModel fsBig 256 144 4 4 1024 = .ok res ∧
      res.warned = true ∧
      res.padded = false ∧
      (∃ fs1, renameFullPcSequential fsBig 3 =
          .ok (fs1, seqNames (finalName 3) 1 (listFullPcImages fsBig).length) ∧
        res.fullPc = fs1) ∧
      (∀ k, 1 ≤ k → k ≤ (listFullPcImages fsBig).length →
        finalName 3 k ∈ keys res.fullPc) ∧
      (∀ m, m ∈ keys res.fullMobile ↔ m ∈ seqNames (finalName 3) 1 MAX_ITEMS) ∧
      res.thumbsCells.length = MAX_ITEMS :=
  ⟨⟨fsBig_ascii, fsBig_lowerNodup, fsBig_noTmp, by rw [fsBig_count]; decide⟩,
    c4_oversupply fsBig 256 144 4 4 1024 fsBig_ascii fsBig_lowerNodup fsBig_noTmp
      (by rw [fsBig_count]; decide)⟩

end Gallery
